import Mathlib

/-!
Verification development for the parked transaction sub-pool
(`crates/transaction-pool/src/pool/parked.rs`).

The Rust code is shallowly embedded: `BTreeMap<TransactionId, _>` becomes an
association list kept strictly sorted by the lexicographic `TransactionId`
order, `BTreeSet<ParkedPoolTransaction>` becomes a list in which insertion is
a no-op when an `Ordering::Equal` element is already present and removal
erases the first `Ordering::Equal` element (exactly the observable semantics
of a `BTreeSet` whose element order is the embedded `cmp`), machine integers
become `Nat` with an explicit `% 2^64` where the source wraps
(`submission_id` uses `wrapping_add`, and `drop -= 1` in `truncate_pool` is a
wrapping `usize` decrement in release builds), and panics (`assert!`,
`expect`) become `Option`.

The development is specialised to the `BasefeeOrd` ordering wrapper (the one
the parked-by-basefee pool instantiates and the one the base-fee sweep
requires); `QueuedOrd`'s comparison is embedded separately.
-/

/-- Modelled from the spec: `TransactionId = (SenderId, nonce)` where
`SenderId` is a dense integer handle (spec section 3; the repository file
`identifier.rs` is not part of the sources). The first component is the
sender id, the second the nonce. -/
abbrev TransactionId := Nat × Nat

/-- Modelled from the spec: the total order on `TransactionId` is
lexicographic, sender first, nonce second (spec section 3). -/
def idLt (a b : TransactionId) : Bool :=
  a.1 < b.1 || (a.1 = b.1 && a.2 < b.2)

/-- Modelled from the spec: the observable interface of a
`ValidPoolTransaction` handle (spec sections 3 and 6): `id()` is
`(sender, nonce)`, `sender_id()`, `max_fee_per_gas() : u128`,
`size() : usize`, and `timestamp`. All numeric fields are embedded as `Nat`;
only comparisons and sums are performed on them, which the embedding
preserves (in particular the `u64 → u128` widening of the basefee is the
identity on `Nat`). -/
structure Tx where
  sender : Nat
  nonce : Nat
  max_fee_per_gas : Nat
  size : Nat
  timestamp : Nat
deriving DecidableEq, Repr

/-- `tx.id()`: the transaction id of a transaction handle. -/
def Tx.id (t : Tx) : TransactionId := (t.sender, t.nonce)

/-- `ParkedPoolTransaction`: an entry of the pool, a `submission_id` stamped
onto the wrapped transaction (`parked.rs` lines 294-300). -/
structure ParkedTx where
  submission_id : Nat
  transaction : Tx
deriving DecidableEq, Repr

/-- `impl Ord for BasefeeOrd` (`parked.rs` lines 435-439): compare by
`max_fee_per_gas`. -/
def basefeeCmp (a b : Tx) : Ordering :=
  compare a.max_fee_per_gas b.max_fee_per_gas

/-- `impl Ord for ParkedPoolTransaction` (`parked.rs` lines 322-331):
compare the transactions first (here: by `BasefeeOrd`), and only when equal
compare the unique `submission_id`, reversed (`other.submission_id.cmp(&self.submission_id)`). -/
def parkedCmp (a b : ParkedTx) : Ordering :=
  (basefeeCmp a.transaction b.transaction).then (compare b.submission_id a.submission_id)

/-- `impl Ord for QueuedOrd` (`parked.rs` lines 456-463), embedded verbatim:
the first comparison is `self.max_fee_per_gas().cmp(&self.max_fee_per_gas())`
— the receiver compared with itself — followed by
`other.timestamp.cmp(&self.timestamp)`. -/
def queuedCmp (a b : Tx) : Ordering :=
  (compare a.max_fee_per_gas a.max_fee_per_gas).then (compare b.timestamp a.timestamp)

/-- `2^64`: the modulus of the `u64` submission counter and of `usize`
arithmetic in the source. -/
def U64 : Nat := 2 ^ 64

/-- Modelled from the spec: `SubPoolLimit { max_txs, max_size }`
(spec section 6; the defining module is not part of the sources).
`truncate_pool` reads only `max_txs`. -/
structure SubPoolLimit where
  max_txs : Nat
  max_size : Nat
deriving DecidableEq, Repr

/-- `SubmissionSenderId` (`parked.rs` lines 335-341): a sender id paired with
a submission id. -/
structure SubmissionSenderId where
  sender_id : Nat
  submission_id : Nat
deriving DecidableEq, Repr

/-- The pool state (`parked.rs` lines 24-39): the wrapping `u64` submission
counter, the `by_id` map (sorted association list), the `best` set (list with
`BTreeSet` insert/remove semantics under `parkedCmp`), and the size tracker.

Modelled from the spec: `SizeTracker` (`pool/size.rs` is not part of the
sources) is a signed accumulator, embedded as `Int` (spec sections 3 and 7:
`size_of == Σ tx.size()`, decremented on every removal). -/
structure ParkedPool where
  submission_id : Nat
  by_id : List (TransactionId × ParkedTx)
  best : List ParkedTx
  size_of : Int
deriving DecidableEq, Repr

/-- `ParkedPool::default()` (`parked.rs` lines 283-292). -/
def emptyPool : ParkedPool := ⟨0, [], [], 0⟩

/-- `BTreeMap::contains_key` on the sorted association list. -/
def containsId (l : List (TransactionId × ParkedTx)) (id : TransactionId) : Bool :=
  l.any (fun e => e.1 = id)

/-- `BTreeMap::get` on the sorted association list. -/
def lookupId (l : List (TransactionId × ParkedTx)) (id : TransactionId) : Option ParkedTx :=
  (l.find? (fun e => e.1 = id)).map (·.2)

/-- `BTreeMap::insert` of a key that is not yet present: place the new entry
at its sorted position. (`add_transaction` asserts freshness before
inserting, so only this case is ever exercised.) -/
def insertById (id : TransactionId) (t : ParkedTx) :
    List (TransactionId × ParkedTx) → List (TransactionId × ParkedTx)
  | [] => [(id, t)]
  | e :: rest => if idLt id e.1 then (id, t) :: e :: rest else e :: insertById id t rest

/-- `BTreeMap::remove`: erase the (unique) entry with the given key. -/
def eraseById (id : TransactionId) :
    List (TransactionId × ParkedTx) → List (TransactionId × ParkedTx)
  | [] => []
  | e :: rest => if e.1 = id then rest else e :: eraseById id rest

/-- `BTreeSet::insert` under `parkedCmp`: a no-op when an `Ordering::Equal`
element is already present. -/
def bestInsert (t : ParkedTx) (l : List ParkedTx) : List ParkedTx :=
  if l.any (fun u => parkedCmp t u = Ordering.eq) then l else t :: l

/-- `BTreeSet::remove` under `parkedCmp`: erase the (at most one)
`Ordering::Equal` element. -/
def bestErase (t : ParkedTx) : List ParkedTx → List ParkedTx
  | [] => []
  | u :: rest => if parkedCmp t u = Ordering.eq then rest else u :: bestErase t rest

/-- `ParkedPool::add_transaction` (`parked.rs` lines 49-66). The
`assert!(!self.by_id.contains_key(&id))` is embedded as `none` (panic).
`next_id` returns the current counter and post-increments it with
`wrapping_add` (`parked.rs` lines 192-196). -/
def ParkedPool.add_transaction (p : ParkedPool) (tx : Tx) : Option ParkedPool :=
  if containsId p.by_id tx.id then none
  else
    let t : ParkedTx := ⟨p.submission_id, tx⟩
    some { submission_id := (p.submission_id + 1) % U64
           by_id := insertById tx.id t p.by_id
           best := bestInsert t p.best
           size_of := p.size_of + tx.size }

/-- `ParkedPool::remove_transaction` (`parked.rs` lines 76-88): remove from
both indexes, decrement `size_of`, return the removed handle (`none` when the
id is absent, in which case the pool is unchanged). -/
def ParkedPool.remove_transaction (p : ParkedPool) (id : TransactionId) :
    Option Tx × ParkedPool :=
  match lookupId p.by_id id with
  | none => (none, p)
  | some t =>
      (some t.transaction,
       { p with
           by_id := eraseById id p.by_id
           best := bestErase t p.best
           size_of := p.size_of - t.transaction.size })

/-- `ParkedPool::get_txs_by_sender` (`parked.rs` lines 91-97): range-scan
from the sender's inclusive lower bound `(sender, 0)` and take while the key
has that sender. -/
def ParkedPool.get_txs_by_sender (p : ParkedPool) (sender : Nat) : List TransactionId :=
  (((p.by_id.dropWhile (fun e => idLt e.1 (sender, 0))).takeWhile
      (fun e => e.1.1 = sender)).map (·.1))

/-- `ParkedPool::len` (`parked.rs` lines 204-206). -/
def ParkedPool.len (p : ParkedPool) : Nat := p.by_id.length

/-- The accumulator step of `get_senders_by_submission_id` (`parked.rs`
lines 110-130), written as direct recursion carrying the record currently at
the tail of the output vector: a same-sender entry updates the tail's
`submission_id` when larger, a new sender pushes a fresh record. -/
def sendersGo (cur : SubmissionSenderId) :
    List (TransactionId × ParkedTx) → List SubmissionSenderId
  | [] => [cur]
  | e :: rest =>
      if e.2.transaction.sender = cur.sender_id then
        sendersGo
          (if cur.submission_id < e.2.submission_id then
            ⟨cur.sender_id, e.2.submission_id⟩
           else cur) rest
      else
        cur :: sendersGo ⟨e.2.transaction.sender, e.2.submission_id⟩ rest

/-- The fold of `get_senders_by_submission_id` over `by_id`
(`parked.rs` lines 107-130) before sorting. -/
def sendersAccum : List (TransactionId × ParkedTx) → List SubmissionSenderId
  | [] => []
  | e :: rest => sendersGo ⟨e.2.transaction.sender, e.2.submission_id⟩ rest

/-- Sorted insertion for `into_sorted_vec`: `impl Ord for SubmissionSenderId`
(`parked.rs` lines 350-355) is the reverse comparison on `submission_id`, so
ascending order in that `Ord` is descending order on `submission_id`. -/
def insertBySubDesc (x : SubmissionSenderId) :
    List SubmissionSenderId → List SubmissionSenderId
  | [] => [x]
  | y :: rest =>
      if y.submission_id ≤ x.submission_id then x :: y :: rest
      else y :: insertBySubDesc x rest

/-- `BinaryHeap::into_sorted_vec` over the reversed `Ord`
(`parked.rs` lines 131-136): sort descending by `submission_id`. (The heap
leaves the relative order of records with equal `submission_id` unspecified;
the insertion sort here fixes one such order. No theorem below depends on the
tie order.) -/
def sortBySubDesc : List SubmissionSenderId → List SubmissionSenderId
  | [] => []
  | x :: rest => insertBySubDesc x (sortBySubDesc rest)

/-- `ParkedPool::get_senders_by_submission_id` (`parked.rs` lines 105-137). -/
def ParkedPool.get_senders_by_submission_id (p : ParkedPool) : List SubmissionSenderId :=
  sortBySubDesc (sendersAccum p.by_id)

/-- The wrapping `usize` decrement `drop -= 1` performed once per removal in
the second branch of `truncate_pool`'s loop (`parked.rs` line 185): in a
release build `0 - 1` wraps to `2^64 - 1`. -/
def wrapPred (d : Nat) : Nat := (d + (U64 - 1)) % U64

/-- The inner loop of `truncate_pool`'s second branch (`parked.rs`
lines 181-186): remove each id of the split-off tail, pushing removed
transactions, decrementing `drop` (wrapping) once per iteration. -/
def removeTail (p : ParkedPool) (ids : List TransactionId) (dropN : Nat)
    (removed : List Tx) : ParkedPool × Nat × List Tx :=
  match ids with
  | [] => (p, dropN, removed)
  | id :: rest =>
      match p.remove_transaction id with
      | (some tx, p') => removeTail p' rest (wrapPred dropN) (removed ++ [tx])
      | (none, p') => removeTail p' rest (wrapPred dropN) removed

/-- The inner loop of `truncate_pool`'s first branch (`parked.rs`
lines 170-174): remove every id of the sender's list, pushing removed
transactions. -/
def removeAll (p : ParkedPool) (ids : List TransactionId) (removed : List Tx) :
    ParkedPool × List Tx :=
  match ids with
  | [] => (p, removed)
  | id :: rest =>
      match p.remove_transaction id with
      | (some tx, p') => removeAll p' rest (removed ++ [tx])
      | (none, p') => removeAll p' rest removed

/-- The `while drop > 0 && !sender_ids.is_empty()` loop of
`ParkedPool::truncate_pool` (`parked.rs` lines 163-187). `sender_ids.pop()`
pops from the back of the vector; the loop therefore consumes the vector
back to front, which is embedded as structural recursion over the reversed
vector. When the popped sender's list has at most `drop` transactions, all
of them are removed and `drop` decreases by the list's length; otherwise the
source iterates over `list.split_off(drop)` — the suffix starting at index
`drop` — removing each and decrementing `drop` by one per removal
(wrapping). -/
def truncateLoop (p : ParkedPool) (sendersRev : List SubmissionSenderId) (dropN : Nat)
    (removed : List Tx) : ParkedPool × List Tx :=
  if dropN = 0 then (p, removed)
  else
    match sendersRev with
    | [] => (p, removed)
    | s :: rest =>
        let list := p.get_txs_by_sender s.sender_id
        if list.length ≤ dropN then
          let r := removeAll p list removed
          truncateLoop r.1 rest (dropN - list.length) r.2
        else
          let r := removeTail p (list.drop dropN) dropN removed
          truncateLoop r.1 rest r.2.1 r.2.2

/-- `ParkedPool::truncate_pool` (`parked.rs` lines 149-190): nothing to do
when `len() ≤ limit.max_txs`; otherwise run the loop with
`drop = len() - limit.max_txs` over the senders ordered by
`get_senders_by_submission_id` (popped from the back, i.e. consumed in
reverse). Returns the updated pool and the removed transactions in removal
order. -/
def ParkedPool.truncate_pool (p : ParkedPool) (limit : SubPoolLimit) :
    ParkedPool × List Tx :=
  if p.len ≤ limit.max_txs then (p, [])
  else truncateLoop p p.get_senders_by_submission_id.reverse (p.len - limit.max_txs) []

/-- The iterator walk of `satisfy_base_fee_ids` (`parked.rs` lines 245-265):
walk `by_id` in order; an entry whose `max_fee_per_gas` is below the basefee
is still parked and the inner `while let Some((peek, _)) = iter.peek()` loop
skips the remaining contiguous run of same-sender entries; otherwise the id
is collected. The inner skip loop is embedded as a `skip` marker holding the
failing sender: the marker skips entries exactly while they carry that
sender and is dropped at the first entry of a different sender, which is
precisely the peek-loop's behaviour. -/
def satisfyGo (b : Nat) : Option Nat → List (TransactionId × ParkedTx) → List TransactionId
  | _, [] => []
  | skip, (id, t) :: rest =>
      if skip = some id.1 then satisfyGo b skip rest
      else if t.transaction.max_fee_per_gas < b then satisfyGo b (some id.1) rest
      else id :: satisfyGo b none rest

/-- `ParkedPool::satisfy_base_fee_ids` (`parked.rs` lines 245-265). The
basefee is a `u64` widened to `u128` for the comparison; on `Nat` the
widening is the identity. -/
def ParkedPool.satisfy_base_fee_ids (p : ParkedPool) (b : Nat) : List TransactionId :=
  satisfyGo b none p.by_id

/-- `ParkedPool::satisfy_base_fee_transactions` (`parked.rs` lines 232-242):
look each satisfying id up in `by_id`; the source's
`expect("transaction exists")` is embedded as `none` (panic). -/
def ParkedPool.satisfy_base_fee_transactions (p : ParkedPool) (b : Nat) :
    Option (List Tx) :=
  ((p.satisfy_base_fee_ids b).mapM (fun id => lookupId p.by_id id)).map
    (List.map (·.transaction))

/-- One removal step of `enforce_basefee`'s loop (`parked.rs` lines
275-277): `remove_transaction(&id).expect("transaction exists")`, pushing
the removed transaction; `none` models the `expect` panic. -/
def enforceStep (acc : Option (ParkedPool × List Tx)) (id : TransactionId) :
    Option (ParkedPool × List Tx) :=
  match acc with
  | none => none
  | some (q, removed) =>
      match q.remove_transaction id with
      | (some tx, q') => some (q', removed ++ [tx])
      | (none, _) => none

/-- `ParkedPool::enforce_basefee` (`parked.rs` lines 271-280): remove every
satisfying id from the pool and return the removed transactions. -/
def ParkedPool.enforce_basefee (p : ParkedPool) (b : Nat) :
    Option (ParkedPool × List Tx) :=
  (p.satisfy_base_fee_ids b).foldl enforceStep (some (p, []))

/-- A public operation on the pool, for reachability statements. -/
inductive PoolOp where
  | add (tx : Tx)
  | remove (id : TransactionId)
  | truncate (limit : SubPoolLimit)
  | basefee (b : Nat)
deriving DecidableEq, Repr

/-- One public operation applied to a pool state; `none` models a panic. -/
def stepOp (p : ParkedPool) : PoolOp → Option ParkedPool
  | .add tx => p.add_transaction tx
  | .remove id => some (p.remove_transaction id).2
  | .truncate limit => some (p.truncate_pool limit).1
  | .basefee b => (p.enforce_basefee b).map (·.1)

/-- Run a sequence of public operations. -/
def runOps (ops : List PoolOp) (p : ParkedPool) : Option ParkedPool :=
  ops.foldlM stepOp p

/-- The number of `add_transaction` operations in a sequence. -/
def addCount (ops : List PoolOp) : Nat :=
  ops.countP (fun o => match o with | .add _ => true | _ => false)

/-- Well-formedness of a pool's primary index, maintained by every reachable
state: keys strictly ascending in the lexicographic order, and each entry
keyed by its transaction's id. -/
def ParkedPool.Wf (p : ParkedPool) : Prop :=
  List.Pairwise (fun a b => idLt a.1 b.1 = true) p.by_id ∧
    ∀ e ∈ p.by_id, e.1 = e.2.transaction.id

instance (p : ParkedPool) : Decidable p.Wf := by
  unfold ParkedPool.Wf
  infer_instance

/-! Concrete transactions and pools used by witnesses and counterexamples. -/

/-- Sender 0, nonce 0. -/
def txW0 : Tx := ⟨0, 0, 7, 2, 0⟩

/-- Sender 0, nonce 1. -/
def txW1 : Tx := ⟨0, 1, 7, 3, 0⟩

/-- Sender 0, nonce 2. -/
def txW2 : Tx := ⟨0, 2, 7, 4, 0⟩

/-- Sender 0, nonce 3. -/
def txW3 : Tx := ⟨0, 3, 7, 5, 0⟩

/-- Sender 1, nonce 0. -/
def txX0 : Tx := ⟨1, 0, 7, 6, 0⟩

/-- A pool holding four transactions of sender 0 (submission ids 0-3) and one
of sender 1 (submission id 4), built by five `add_transaction` calls. -/
def poolFive : ParkedPool :=
  (runOps [.add txW0, .add txW1, .add txW2, .add txW3, .add txX0] emptyPool).getD emptyPool

/-- A pool holding one transaction of sender 0 (submission id 0) and one of
sender 1 (submission id 1). -/
def poolTwo : ParkedPool :=
  (runOps [.add txW0, .add txX0] emptyPool).getD emptyPool

/-- A pool for base-fee sweeps: sender 0 holds nonce 0 at fee 10, nonce 1 at
fee 1, nonce 2 at fee 20; sender 1 holds nonce 0 at fee 3. -/
def poolBase : ParkedPool :=
  (runOps [.add ⟨0, 0, 10, 2, 0⟩, .add ⟨0, 1, 1, 3, 0⟩, .add ⟨0, 2, 20, 4, 0⟩,
      .add ⟨1, 0, 3, 5, 0⟩] emptyPool).getD emptyPool

/-! Inputs of the submission-counter wrap-around counterexample: one
transaction of sender 0, then `2^64 - 1` transactions of sender 1, then one
transaction of sender 2 whose entry collides in `best` (equal
`max_fee_per_gas` and, after the counter wraps, equal `submission_id`) with
the still-resident first entry. -/

/-- Sender 0, nonce 0, fee 5: receives submission id `0`. -/
def cexTxA : Tx := ⟨0, 0, 5, 1, 0⟩

/-- Sender 1, nonce `i`, fee 6: filler transactions. -/
def cexMid (i : Nat) : Tx := ⟨1, i, 6, 1, 0⟩

/-- Sender 2, nonce 0, fee 5: receives the wrapped submission id `0`. -/
def cexTxB : Tx := ⟨2, 0, 5, 1, 0⟩

/-- `n` filler additions. -/
def cexMids (n : Nat) : List PoolOp :=
  (List.range n).map (fun i => PoolOp.add (cexMid i))

/-- The wrap-around operation sequence: `2^64 + 1` additions in total. -/
def cexOps : List PoolOp :=
  PoolOp.add cexTxA :: (cexMids (U64 - 1) ++ [PoolOp.add cexTxB])

/-- The sum of the reported sizes of the entries of a `by_id` list, as the
signed quantity tracked by `size_of`. -/
def sizeSum (l : List (TransactionId × ParkedTx)) : Int :=
  (l.map (fun e => (e.2.transaction.size : Int))).sum

/-- The inductive invariant behind the bijection property, indexed by the
number `m` of `add_transaction` operations performed so far: the counter
equals `m` modulo `2^64`, every resident entry was stamped below `m`, the
stamps are pairwise distinct, and the two indexes hold the same multiset of
entries. -/
def BijInv (m : Nat) (p : ParkedPool) : Prop :=
  p.submission_id = m % U64 ∧
  (∀ t ∈ p.by_id.map (·.2), t.submission_id < m) ∧
  ((p.by_id.map (·.2)).map (·.submission_id)).Nodup ∧
  (p.by_id.map (·.2)).Perm p.best

/-- The pool after `add_transaction(cexTxA)` on the empty pool. -/
def cexStart : ParkedPool :=
  ⟨1, [((0, 0), ⟨0, cexTxA⟩)], [⟨0, cexTxA⟩], 1⟩

/-- The invariant carried through the `2^64 - 1` filler additions of the
wrap-around counterexample, after `i` of them: the counter is `1 + i` modulo
`2^64`, both indexes hold `1 + i` entries, every `best` element was stamped
below `1 + i`, the original entry (stamp 0, fee 5) is still in `best`, and
the resident keys are those of senders 0 and 1 with filler nonces below
`i`. -/
def CexInv (i : Nat) (q : ParkedPool) : Prop :=
  q.submission_id = (1 + i) % U64 ∧
  q.by_id.length = 1 + i ∧
  q.best.length = 1 + i ∧
  (∀ u ∈ q.best, u.submission_id < 1 + i) ∧
  (∃ u ∈ q.best, u.submission_id = 0 ∧ u.transaction.max_fee_per_gas = 5) ∧
  (∀ e ∈ q.by_id, e.1.1 ≤ 1 ∧ (e.1.1 = 1 → e.1.2 < i))

/-! ### Basic helper lemmas -/

theorem ordering_then_eq_iff (o₁ o₂ : Ordering) :
    o₁.then o₂ = Ordering.eq ↔ o₁ = Ordering.eq ∧ o₂ = Ordering.eq := by
  cases o₁ <;> cases o₂ <;> simp [Ordering.then]

theorem parkedCmp_eq_iff (a b : ParkedTx) :
    parkedCmp a b = Ordering.eq ↔
      a.transaction.max_fee_per_gas = b.transaction.max_fee_per_gas ∧
        a.submission_id = b.submission_id := by
  unfold parkedCmp basefeeCmp
  rw [ordering_then_eq_iff, Nat.compare_eq_eq, Nat.compare_eq_eq]
  exact and_congr Iff.rfl eq_comm

theorem containsId_eq_false_iff (l : List (TransactionId × ParkedTx)) (id : TransactionId) :
    containsId l id = false ↔ ∀ e ∈ l, e.1 ≠ id := by
  simp [containsId]

theorem lookupId_cons (e : TransactionId × ParkedTx) (l : List (TransactionId × ParkedTx))
    (id : TransactionId) :
    lookupId (e :: l) id = if e.1 = id then some e.2 else lookupId l id := by
  by_cases h : e.1 = id
  · simp [lookupId, List.find?_cons_of_pos, h]
  · simp [lookupId, List.find?_cons_of_neg, h]

theorem lookupId_insertById (id : TransactionId) (t : ParkedTx)
    (l : List (TransactionId × ParkedTx)) (h : containsId l id = false) :
    lookupId (insertById id t l) id = some t := by
  induction l with
  | nil => simp [insertById, lookupId]
  | cons e rest ih =>
      rw [containsId_eq_false_iff] at h
      have he : e.1 ≠ id := h e (by simp)
      have hrest : containsId rest id = false := by
        rw [containsId_eq_false_iff]
        intro x hx
        exact h x (by simp [hx])
      unfold insertById
      by_cases hlt : idLt id e.1 = true
      · simp [hlt, lookupId_cons]
      · simp [hlt, lookupId_cons, he, ih hrest]

/-! ### Claim theorems: evaluations, counterexamples, and the duplicate-add
contract -/

/-- C5: the source's `QueuedOrd::cmp` compares the receiver's
`max_fee_per_gas` with itself (`self...cmp(&self...)`), so the fee never
influences the result, contradicting the comparison's own documentation
("compares the transaction costs first"): against a transaction with fee 1
and timestamp 3, a transaction with the strictly higher fee 10 and timestamp
5 compares `lt` (the claim requires `gt`), and with equal timestamps the
result is `eq` whatever the fees. -/
theorem queuedCmp_ignores_fee_eval :
    queuedCmp ⟨0, 0, 10, 1, 5⟩ ⟨1, 0, 1, 1, 3⟩ = Ordering.lt ∧
    queuedCmp ⟨0, 0, 10, 1, 3⟩ ⟨1, 0, 1, 1, 3⟩ = Ordering.eq := by decide

/-- C2: evaluation of `truncate_pool` at a failing input. `poolFive` holds
five transactions (sender 0: nonces 0-3, sender 1: nonce 0) and the limit is
4, so the claim requires exactly one removal, leaving four resident. The
code's second branch removes `list.split_off(drop)` — the suffix of length
`len - drop = 3` rather than `drop = 1` — wraps `drop` below zero, and then
also drains sender 1: four transactions are removed and one is left. -/
theorem truncate_pool_overshoot_eval :
    poolFive.len = 5 ∧
    (poolFive.truncate_pool ⟨4, 1000000⟩).2 = [txW1, txW2, txW3, txX0] ∧
    (poolFive.truncate_pool ⟨4, 1000000⟩).1.len = 1 := by decide

/-- C3 counterexample: in `poolTwo`, sender 0's newest submission id is 0 and
sender 1's is 1, yet `get_senders_by_submission_id` returns sender 1 first:
the vector is sorted descending by maximum submission id, not ascending as
the claim states. -/
theorem get_senders_not_ascending_cex :
    poolTwo.get_senders_by_submission_id = [⟨1, 1⟩, ⟨0, 0⟩] ∧
    ¬ List.Chain' (fun a b => a.submission_id ≤ b.submission_id)
        poolTwo.get_senders_by_submission_id := by
  refine ⟨by decide, ?_⟩
  intro hch
  rw [show poolTwo.get_senders_by_submission_id =
      [⟨1, 1⟩, ⟨0, 0⟩] from by decide] at hch
  simp [List.chain'_cons] at hch

/-- C4 counterexample: truncating `poolTwo` to one transaction evicts the
transaction of sender 0 — whose newest submission id 0 is the *oldest* —
while the most-recently-active sender 1 (newest submission id 1, the head of
the returned vector) keeps its transaction: the sender popped first is the
least-recently-active one, not the most-recently-active one the claim
states. -/
theorem truncate_pops_least_recent_cex :
    (poolTwo.truncate_pool ⟨1, 1000000⟩).2 = [txW0] ∧
    txW0.sender = 0 ∧
    poolTwo.get_senders_by_submission_id = [⟨1, 1⟩, ⟨0, 0⟩] := by decide

/-- C8: `add_transaction` with an already-resident id fails loudly — the
embedded `assert!` panic, `none` — rather than replacing the entry or
returning a value; with a fresh id it does not panic and inserts an entry
for the transaction, keyed by its id and stamped with the current submission
counter. -/
theorem add_transaction_contract (p : ParkedPool) (tx : Tx) :
    (containsId p.by_id tx.id = true → p.add_transaction tx = none) ∧
    (containsId p.by_id tx.id = false →
      ∃ p', p.add_transaction tx = some p' ∧
        lookupId p'.by_id tx.id = some ⟨p.submission_id, tx⟩) := by
  constructor
  · intro h
    simp [ParkedPool.add_transaction, h]
  · intro h
    have hne : ¬ (containsId p.by_id tx.id = true) := by simp [h]
    unfold ParkedPool.add_transaction
    rw [if_neg hne]
    exact ⟨_, rfl, lookupId_insertById _ _ _ h⟩

/-- C8 witness: adding `txW0` to `poolTwo` (which holds it) panics; adding it
to the empty pool succeeds and the entry is found under its id. -/
theorem add_transaction_contract_witness :
    poolTwo.add_transaction txW0 = none ∧
    ∃ p', emptyPool.add_transaction txW0 = some p' ∧
      lookupId p'.by_id txW0.id = some ⟨emptyPool.submission_id, txW0⟩ :=
  ⟨(add_transaction_contract poolTwo txW0).1 (by decide),
   (add_transaction_contract emptyPool txW0).2 (by decide)⟩

/-! ### Key-order and lookup lemmas -/

theorem idLt_iff (a c : TransactionId) :
    idLt a c = true ↔ a.1 < c.1 ∨ (a.1 = c.1 ∧ a.2 < c.2) := by
  simp [idLt]

theorem idLt_irrefl (a : TransactionId) : ¬ idLt a a = true := by
  simp [idLt]

theorem lookupId_eq_none (l : List (TransactionId × ParkedTx)) (id : TransactionId)
    (h : ∀ e ∈ l, e.1 ≠ id) : lookupId l id = none := by
  unfold lookupId
  rw [List.find?_eq_none.mpr]
  · rfl
  · intro e he
    simp [h e he]

theorem lookupId_some_mem (l : List (TransactionId × ParkedTx)) (id : TransactionId)
    (t : ParkedTx) (h : lookupId l id = some t) : (id, t) ∈ l := by
  unfold lookupId at h
  obtain ⟨e, he, ht⟩ : ∃ e, l.find? (fun e => e.1 = id) = some e ∧ e.2 = t := by
    cases hf : l.find? (fun e => e.1 = id) with
    | none => rw [hf] at h; simp at h
    | some e => rw [hf] at h; exact ⟨e, rfl, by simpa using h⟩
  have hmem := List.mem_of_find?_eq_some he
  have hkey : e.1 = id := by simpa using List.find?_some he
  have : e = (id, t) := by
    cases e
    simp_all
  rw [← this]
  exact hmem

/-! ### Structure of `satisfyGo` -/

theorem satisfyGo_sublist (b : Nat) (sk : Option Nat) (l : List (TransactionId × ParkedTx)) :
    (satisfyGo b sk l).Sublist (l.map (·.1)) := by
  induction l generalizing sk with
  | nil => simp [satisfyGo]
  | cons e rest ih =>
      obtain ⟨id, t⟩ := e
      simp only [satisfyGo, List.map_cons]
      by_cases h₁ : sk = some id.1
      · rw [if_pos h₁]
        exact (ih sk).cons id
      · rw [if_neg h₁]
        by_cases h₂ : t.transaction.max_fee_per_gas < b
        · rw [if_pos h₂]
          exact (ih (some id.1)).cons id
        · rw [if_neg h₂]
          exact (ih none).cons₂ id

theorem satisfyGo_mem_keys (b : Nat) (sk : Option Nat) (l : List (TransactionId × ParkedTx))
    (x : TransactionId) (h : x ∈ satisfyGo b sk l) : x ∈ l.map (·.1) :=
  (satisfyGo_sublist b sk l).subset h

theorem satisfyGo_skip (b s : Nat) (l : List (TransactionId × ParkedTx)) :
    satisfyGo b (some s) l = satisfyGo b none (l.dropWhile (fun e => e.1.1 = s)) := by
  induction l with
  | nil => simp [satisfyGo]
  | cons e rest ih =>
      obtain ⟨id, t⟩ := e
      by_cases h : id.1 = s
      · have hcond : (some s = some id.1) := by rw [h]
        have hdrop : ((id, t) :: rest).dropWhile (fun e => e.1.1 = s) =
            rest.dropWhile (fun e => e.1.1 = s) := by
          simp [List.dropWhile, h]
        rw [hdrop, ← ih]
        simp only [satisfyGo]
        rw [if_pos hcond]
      · have hcond : ¬ (some s = some id.1) := by
          intro hh
          exact h (by injection hh with h'; exact h'.symm)
        have hdrop : ((id, t) :: rest).dropWhile (fun e => e.1.1 = s) = (id, t) :: rest := by
          simp [List.dropWhile, h]
        rw [hdrop]
        simp only [satisfyGo]
        rw [if_neg hcond, if_neg (show ¬ ((none : Option Nat) = some id.1) by simp)]

theorem no_sender_after_drop (s₀ n₀ : Nat) (rest : List (TransactionId × ParkedTx))
    (hge : ∀ x ∈ rest, idLt (s₀, n₀) x.1 = true)
    (hsorted : List.Pairwise (fun a c => idLt a.1 c.1 = true) rest) :
    ∀ x ∈ rest.dropWhile (fun e => e.1.1 = s₀), s₀ < x.1.1 := by
  induction rest with
  | nil => simp
  | cons e rest' ih =>
      obtain ⟨hhead, hrest'⟩ := List.pairwise_cons.mp hsorted
      by_cases hp : e.1.1 = s₀
      · have hdrop : (e :: rest').dropWhile (fun x => x.1.1 = s₀) =
            rest'.dropWhile (fun x => x.1.1 = s₀) := by
          simp [List.dropWhile, hp]
        rw [hdrop]
        exact ih (fun x hx => hge x (by simp [hx])) hrest'
      · have hdrop : (e :: rest').dropWhile (fun x => x.1.1 = s₀) = e :: rest' := by
          simp [List.dropWhile, hp]
        rw [hdrop]
        have he : s₀ < e.1.1 := by
          have := (idLt_iff _ _).mp (hge e (by simp))
          rcases this with h | ⟨h, _⟩
          · exact h
          · exact absurd h.symm hp
        intro x hx
        rcases List.mem_cons.mp hx with rfl | hx'
        · exact he
        · have := (idLt_iff _ _).mp (hhead x hx')
          rcases this with h | ⟨h, _⟩
          · omega
          · omega

/-! ### The membership characterization of the base-fee sweep -/

theorem satisfy_mem_aux (b s n : Nat) :
    ∀ (k : Nat) (l : List (TransactionId × ParkedTx)), l.length ≤ k →
      List.Pairwise (fun a c => idLt a.1 c.1 = true) l →
      ((s, n) ∈ satisfyGo b none l ↔
        ((∃ t, lookupId l (s, n) = some t ∧ b ≤ t.transaction.max_fee_per_gas) ∧
          ∀ n' t', n' < n → lookupId l (s, n') = some t' →
            b ≤ t'.transaction.max_fee_per_gas)) := by
  intro k
  induction k with
  | zero =>
      intro l hl _
      have hnil : l = [] := List.length_eq_zero.mp (Nat.le_zero.mp hl)
      subst hnil
      simp [satisfyGo, lookupId]
  | succ k ih =>
      intro l hl hs
      match l with
      | [] => simp [satisfyGo, lookupId]
      | (id₀, t₀) :: rest =>
          obtain ⟨hhead, hrest⟩ := List.pairwise_cons.mp hs
          have hlrest : rest.length ≤ k := by
            simp only [List.length_cons] at hl
            omega
          by_cases hfee : t₀.transaction.max_fee_per_gas < b
          · -- the head is still parked: the same-sender run is skipped
            have hstep : satisfyGo b none ((id₀, t₀) :: rest) =
                satisfyGo b none (rest.dropWhile (fun e => e.1.1 = id₀.1)) := by
              simp only [satisfyGo]
              rw [if_neg (show ¬ ((none : Option Nat) = some id₀.1) by simp), if_pos hfee,
                satisfyGo_skip]
            rw [hstep]
            by_cases hseq : s = id₀.1
            · -- same sender as the failing head: not in the result, and the
              -- right-hand side fails as well
              subst hseq
              constructor
              · intro hmem
                exfalso
                have hkey := satisfyGo_mem_keys _ _ _ _ hmem
                obtain ⟨e, he, hekey⟩ := List.mem_map.mp hkey
                have hgt := no_sender_after_drop id₀.1 id₀.2 rest
                  (fun x hx => by simpa using hhead x hx) hrest e he
                rw [hekey] at hgt
                exact lt_irrefl _ hgt
              · rintro ⟨⟨t, hlk, hfe⟩, hall⟩
                rcases Nat.lt_trichotomy n id₀.2 with hn | hn | hn
                · -- a nonce below the minimal resident nonce of this sender
                  have hnone : lookupId ((id₀, t₀) :: rest) (id₀.1, n) = none := by
                    apply lookupId_eq_none
                    intro e he hekey
                    rcases List.mem_cons.mp he with rfl | he'
                    · have : id₀.2 = n := by
                        have := congrArg Prod.snd hekey
                        simpa using this
                      omega
                    · have hlt2 := (idLt_iff _ _).mp (hhead e he')
                      rw [hekey] at hlt2
                      simp at hlt2
                      omega
                  rw [hnone] at hlk
                  exact Option.noConfusion hlk
                · -- exactly the failing head
                  have hkey : ((id₀, t₀) : TransactionId × ParkedTx).1 = (id₀.1, n) := by
                    cases id₀
                    simp_all
                  rw [lookupId_cons, if_pos hkey] at hlk
                  have : t = t₀ := by injection hlk with h; exact h.symm
                  subst this
                  omega
                · -- above the failing head: the head witnesses the failure
                  have hkey : ((id₀, t₀) : TransactionId × ParkedTx).1 = (id₀.1, id₀.2) := by
                    cases id₀
                    rfl
                  have hlk₀ : lookupId ((id₀, t₀) :: rest) (id₀.1, id₀.2) = some t₀ := by
                    rw [lookupId_cons, if_pos hkey]
                  have := hall id₀.2 t₀ hn hlk₀
                  omega
            · -- a different sender: the skipped run is irrelevant
              have hsub : (rest.dropWhile (fun e => e.1.1 = id₀.1)).Sublist rest :=
                List.dropWhile_sublist _
              have hlen : (rest.dropWhile (fun e => e.1.1 = id₀.1)).length ≤ k :=
                le_trans hsub.length_le hlrest
              have hiff := ih (rest.dropWhile (fun e => e.1.1 = id₀.1)) hlen
                (List.Pairwise.sublist hsub hrest)
              have htrans : ∀ m, lookupId ((id₀, t₀) :: rest) (s, m) =
                  lookupId (rest.dropWhile (fun e => e.1.1 = id₀.1)) (s, m) := by
                intro m
                rw [lookupId_cons, if_neg (show ¬ ((id₀, t₀) : TransactionId × ParkedTx).1 = (s, m) by
                  intro hh
                  apply hseq
                  have h1 := congrArg Prod.fst hh
                  simpa using h1.symm)]
                conv_lhs =>
                  rw [← List.takeWhile_append_dropWhile (p := fun e => e.1.1 = id₀.1) (l := rest)]
                unfold lookupId
                rw [List.find?_append]
                have hnonefind : (rest.takeWhile (fun e => e.1.1 = id₀.1)).find?
                    (fun e => e.1 = (s, m)) = none := by
                  rw [List.find?_eq_none]
                  intro x hx
                  have hxs : x.1.1 = id₀.1 := by
                    have := List.mem_takeWhile_imp hx
                    simpa using this
                  simp only [decide_eq_true_eq]
                  intro hxeq
                  rw [hxeq] at hxs
                  simp at hxs
                  exact hseq hxs
                rw [hnonefind, Option.none_or]
              rw [hiff]
              constructor
              · rintro ⟨⟨t, hlk, hfe⟩, hall⟩
                exact ⟨⟨t, by rw [htrans n]; exact hlk, hfe⟩,
                  fun n' t' hlt hlk' => hall n' t' hlt (by rw [← htrans n']; exact hlk')⟩
              · rintro ⟨⟨t, hlk, hfe⟩, hall⟩
                exact ⟨⟨t, by rw [← htrans n]; exact hlk, hfe⟩,
                  fun n' t' hlt hlk' => hall n' t' hlt (by rw [htrans n']; exact hlk')⟩
          · -- the head satisfies the basefee and is collected
            have hstep : satisfyGo b none ((id₀, t₀) :: rest) =
                id₀ :: satisfyGo b none rest := by
              simp only [satisfyGo]
              rw [if_neg (show ¬ ((none : Option Nat) = some id₀.1) by simp), if_neg hfee]
            rw [hstep]
            have hiff := ih rest hlrest hrest
            by_cases hid : ((s, n) : TransactionId) = id₀
            · constructor
              · intro _
                refine ⟨⟨t₀, ?_, by omega⟩, ?_⟩
                · rw [lookupId_cons, if_pos hid.symm]
                · intro n' t' hlt hlk
                  have hnone : lookupId ((id₀, t₀) :: rest) (s, n') = none := by
                    apply lookupId_eq_none
                    intro e he hekey
                    rcases List.mem_cons.mp he with rfl | he'
                    · have hn' : n = n' := by
                        have h1 := congrArg Prod.snd hid
                        have h2 := congrArg Prod.snd hekey
                        simp at h1 h2
                        omega
                      omega
                    · have := (idLt_iff _ _).mp (hhead e he')
                      rw [hekey, ← hid] at this
                      rcases this with h | ⟨_, h⟩ <;> simp at h <;> omega
                  rw [hnone] at hlk
                  exact Option.noConfusion hlk
              · intro _
                exact List.mem_cons.mpr (Or.inl hid)
            · have hmemiff : ((s, n) ∈ id₀ :: satisfyGo b none rest) ↔
                  (s, n) ∈ satisfyGo b none rest := by
                rw [List.mem_cons]
                exact or_iff_right hid
              rw [hmemiff, hiff]
              have hidne : ((id₀, t₀) : TransactionId × ParkedTx).1 ≠ (s, n) :=
                fun hh => hid hh.symm
              constructor
              · rintro ⟨⟨t, hlk, hfe⟩, hall⟩
                refine ⟨⟨t, by rw [lookupId_cons, if_neg hidne]; exact hlk, hfe⟩, ?_⟩
                intro n' t' hlt hlk'
                rw [lookupId_cons] at hlk'
                by_cases hh : ((id₀, t₀) : TransactionId × ParkedTx).1 = (s, n')
                · rw [if_pos hh] at hlk'
                  have hv : t' = t₀ := by
                    injection hlk' with hv2
                    exact hv2.symm
                  subst hv
                  omega
                · rw [if_neg hh] at hlk'
                  exact hall n' t' hlt hlk'
              · rintro ⟨⟨t, hlk, hfe⟩, hall⟩
                rw [lookupId_cons, if_neg hidne] at hlk
                refine ⟨⟨t, hlk, hfe⟩, ?_⟩
                intro n' t' hlt hlk'
                have hne : ((id₀, t₀) : TransactionId × ParkedTx).1 ≠ (s, n') := by
                  intro hh
                  have hmem' := lookupId_some_mem _ _ _ hlk'
                  have hlt' := hhead _ hmem'
                  rw [hh] at hlt'
                  exact idLt_irrefl _ hlt'
                apply hall n' t' hlt
                rw [lookupId_cons, if_neg hne]
                exact hlk'

theorem satisfy_mem_iff (b s n : Nat) (l : List (TransactionId × ParkedTx))
    (hs : List.Pairwise (fun a c => idLt a.1 c.1 = true) l) :
    (s, n) ∈ satisfyGo b none l ↔
      ((∃ t, lookupId l (s, n) = some t ∧ b ≤ t.transaction.max_fee_per_gas) ∧
        ∀ n' t', n' < n → lookupId l (s, n') = some t' →
          b ≤ t'.transaction.max_fee_per_gas) :=
  satisfy_mem_aux b s n l.length l (le_refl _) hs

/-! ### Nodup keys, lookup after filtering, and the enforcement fold -/

theorem keys_nodup (l : List (TransactionId × ParkedTx))
    (hs : List.Pairwise (fun a c => idLt a.1 c.1 = true) l) :
    (l.map (·.1)).Nodup :=
  List.Pairwise.map _
    (fun _ _ h heq => by rw [heq] at h; exact idLt_irrefl _ h) hs

theorem mem_lookupId_of_nodup (l : List (TransactionId × ParkedTx)) (id : TransactionId)
    (t : ParkedTx) (hnd : (l.map (·.1)).Nodup) (hmem : (id, t) ∈ l) :
    lookupId l id = some t := by
  induction l with
  | nil => simp at hmem
  | cons e rest ih =>
      rcases List.mem_cons.mp hmem with heq | hmem'
      · rw [← heq]
        simp [lookupId_cons]
      · rw [List.map_cons] at hnd
        have hnd' := List.nodup_cons.mp hnd
        have hne : e.1 ≠ id := by
          intro hh
          apply hnd'.1
          rw [hh]
          exact List.mem_map.mpr ⟨(id, t), hmem', rfl⟩
        rw [lookupId_cons, if_neg hne]
        exact ih hnd'.2 hmem'

theorem eraseById_eq_filter (id : TransactionId) (l : List (TransactionId × ParkedTx))
    (hnd : (l.map (·.1)).Nodup) :
    eraseById id l = l.filter (fun e => ¬ e.1 = id) := by
  induction l with
  | nil => rfl
  | cons e rest ih =>
      rw [List.map_cons] at hnd
      have hnd' := List.nodup_cons.mp hnd
      by_cases h : e.1 = id
      · rw [show eraseById id (e :: rest) = rest from by simp [eraseById, h]]
        have hpred : (e :: rest).filter (fun e => ¬ e.1 = id) =
            rest.filter (fun e => ¬ e.1 = id) := by
          simp [List.filter_cons, h]
        rw [hpred, List.filter_eq_self.mpr]
        intro x hx
        simp only [decide_eq_true_eq]
        intro hxeq
        apply hnd'.1
        rw [h, ← hxeq]
        exact List.mem_map.mpr ⟨x, hx, rfl⟩
      · rw [show eraseById id (e :: rest) = e :: eraseById id rest from by
          simp [eraseById, h]]
        rw [ih hnd'.2]
        simp [List.filter_cons, h]

theorem enforce_fold_spec :
    ∀ (ids : List TransactionId) (p : ParkedPool) (removed₀ : List Tx),
      (p.by_id.map (·.1)).Nodup →
      (∀ e ∈ p.by_id, e.1 = e.2.transaction.id) →
      ids.Nodup →
      (∀ id ∈ ids, ∃ t, lookupId p.by_id id = some t) →
      ∃ q rem, ids.foldl enforceStep (some (p, removed₀)) = some (q, removed₀ ++ rem) ∧
        rem.map Tx.id = ids ∧
        q.by_id = p.by_id.filter (fun e => ¬ e.1 ∈ ids) := by
  intro ids
  induction ids with
  | nil =>
      intro p removed₀ _ _ _ _
      refine ⟨p, [], by simp, by simp, ?_⟩
      rw [List.filter_eq_self.mpr]
      intro x _
      simp
  | cons id ids' ih =>
      intro p removed₀ hnd hwf hidnd hpres
      obtain ⟨t, hlk⟩ := hpres id (by simp)
      have hstep : enforceStep (some (p, removed₀)) id =
          some ({ p with
                    by_id := eraseById id p.by_id
                    best := bestErase t p.best
                    size_of := p.size_of - t.transaction.size },
                removed₀ ++ [t.transaction]) := by
        simp [enforceStep, ParkedPool.remove_transaction, hlk]
      set p₁ : ParkedPool :=
        { p with
            by_id := eraseById id p.by_id
            best := bestErase t p.best
            size_of := p.size_of - t.transaction.size } with hp₁
      have hby₁ : p₁.by_id = p.by_id.filter (fun e => ¬ e.1 = id) := by
        rw [hp₁]
        exact eraseById_eq_filter id p.by_id hnd
      have hnd₁ : (p₁.by_id.map (·.1)).Nodup := by
        rw [hby₁]
        exact ((List.filter_sublist _).map _).nodup hnd
      have hwf₁ : ∀ e ∈ p₁.by_id, e.1 = e.2.transaction.id := by
        intro e he
        rw [hby₁] at he
        exact hwf e (List.mem_filter.mp he).1
      have hidnd' := List.nodup_cons.mp hidnd
      have hpres₁ : ∀ id' ∈ ids', ∃ t', lookupId p₁.by_id id' = some t' := by
        intro id' hid'
        obtain ⟨t', hlk'⟩ := hpres id' (by simp [hid'])
        refine ⟨t', ?_⟩
        apply mem_lookupId_of_nodup _ _ _ hnd₁
        rw [hby₁]
        apply List.mem_filter.mpr
        refine ⟨lookupId_some_mem _ _ _ hlk', ?_⟩
        simp only [decide_eq_true_eq]
        intro hh
        rw [hh] at hid'
        exact hidnd'.1 hid'
      obtain ⟨q, rem, hfold, hmap, hfilter⟩ := ih p₁ (removed₀ ++ [t.transaction])
        hnd₁ hwf₁ hidnd'.2 hpres₁
      refine ⟨q, t.transaction :: rem, ?_, ?_, ?_⟩
      · rw [List.foldl_cons, hstep, hfold]
        simp
      · have hide : id = t.transaction.id := hwf (id, t) (lookupId_some_mem _ _ _ hlk)
        simp [hmap, ← hide]
      · rw [hfilter, hby₁, List.filter_filter]
        apply List.filter_congr
        intro e _
        by_cases h1 : e.1 = id <;> by_cases h2 : e.1 ∈ ids' <;>
          simp [h1, h2]

/-! ### Claim theorems for the base-fee sweep -/

/-- C6: a resident transaction's id `(s, n)` is in `satisfy_base_fee_ids b`
exactly when its own `max_fee_per_gas` is at least `b` (the comparison in the
source is the strict `max_fee_per_gas < basefee as u128`, so equal fee is
satisfied; on `Nat` the `u64 → u128` widening is the identity) and no
resident same-sender transaction of strictly lower nonce fails that
comparison — in particular, once a sender's transaction fails, all its
higher-nonce transactions are excluded regardless of their own fee. -/
theorem satisfy_base_fee_ids_spec (p : ParkedPool) (b : Nat) (hwf : p.Wf) (s n : Nat) :
    (s, n) ∈ p.satisfy_base_fee_ids b ↔
      ((∃ t, lookupId p.by_id (s, n) = some t ∧ b ≤ t.transaction.max_fee_per_gas) ∧
        ∀ n' t', n' < n → lookupId p.by_id (s, n') = some t' →
          b ≤ t'.transaction.max_fee_per_gas) :=
  satisfy_mem_iff b s n p.by_id hwf.1

/-- C6 witness: in `poolBase` with basefee 5, the id `(0, 0)` (fee 10, no
lower nonce) is satisfied. -/
theorem satisfy_base_fee_ids_spec_witness :
    (0, 0) ∈ poolBase.satisfy_base_fee_ids 5 :=
  (satisfy_base_fee_ids_spec poolBase 5 (by decide) 0 0).mpr
    ⟨⟨⟨0, ⟨0, 0, 10, 2, 0⟩⟩, by decide, by decide⟩,
     fun n' _ h => absurd h (Nat.not_lt_zero n')⟩

/-- C10: the transactions removed by `enforce_basefee` from one sender form
a lowest-nonce prefix of that sender's resident transactions: whenever the
id `(s, n)` is removed and `(s, n')` with `n' < n` is resident, `(s, n')` is
removed as well, and in particular is not left resident — no nonce gap is
introduced. -/
theorem enforce_no_nonce_gap (p : ParkedPool) (b : Nat) (hwf : p.Wf)
    (q : ParkedPool) (rem : List Tx) (henf : p.enforce_basefee b = some (q, rem))
    (s n n' : Nat) (t' : ParkedTx)
    (hrem : (s, n) ∈ rem.map Tx.id) (hlt : n' < n)
    (hlk : lookupId p.by_id (s, n') = some t') :
    (s, n') ∈ rem.map Tx.id ∧ ¬ (s, n') ∈ q.by_id.map (·.1) := by
  obtain ⟨hsort, hkeys⟩ := hwf
  have hnd : (p.by_id.map (·.1)).Nodup := keys_nodup _ hsort
  have hidsnd : (p.satisfy_base_fee_ids b).Nodup :=
    (satisfyGo_sublist b none p.by_id).nodup hnd
  have hpres : ∀ id ∈ p.satisfy_base_fee_ids b, ∃ t, lookupId p.by_id id = some t := by
    intro id hid
    obtain ⟨e, he, hekey⟩ := List.mem_map.mp (satisfyGo_mem_keys _ _ _ _ hid)
    exact ⟨e.2, by rw [← hekey]; exact mem_lookupId_of_nodup _ _ _ hnd (by simpa using he)⟩
  obtain ⟨q₀, rem₀, hfold, hmap, hfilter⟩ :=
    enforce_fold_spec (p.satisfy_base_fee_ids b) p [] hnd hkeys hidsnd hpres
  have henf₀ : p.enforce_basefee b = some (q₀, rem₀) := by
    unfold ParkedPool.enforce_basefee
    rw [hfold]
    simp
  rw [henf₀] at henf
  injection henf with henf'
  injection henf' with hq hrem'
  subst hq
  subst hrem'
  rw [hmap] at hrem ⊢
  have hmemn' : (s, n') ∈ p.satisfy_base_fee_ids b := by
    obtain ⟨⟨t, hlkn, hfe⟩, hall⟩ := (satisfy_mem_iff b s n p.by_id hsort).mp hrem
    exact (satisfy_mem_iff b s n' p.by_id hsort).mpr
      ⟨⟨t', hlk, hall n' t' hlt hlk⟩,
       fun n'' t'' hlt'' hlk'' => hall n'' t'' (lt_trans hlt'' hlt) hlk''⟩
  refine ⟨hmemn', ?_⟩
  intro hinq
  obtain ⟨e, he, hekey⟩ := List.mem_map.mp hinq
  rw [hfilter] at he
  have := (List.mem_filter.mp he).2
  rw [hekey] at this
  simp at this
  exact this hmemn'

/-- C7: `enforce_basefee b` succeeds (no `expect` panic), returns exactly the
transactions identified by `satisfy_base_fee_ids b` (their ids, in order),
removes exactly those entries from `by_id`, and is idempotent: a second
`enforce_basefee b` on the result removes nothing and returns the state
unchanged. -/
theorem enforce_basefee_spec (p : ParkedPool) (b : Nat) (hwf : p.Wf) :
    ∃ q rem, p.enforce_basefee b = some (q, rem) ∧
      rem.map Tx.id = p.satisfy_base_fee_ids b ∧
      q.by_id = p.by_id.filter (fun e => ¬ e.1 ∈ p.satisfy_base_fee_ids b) ∧
      q.enforce_basefee b = some (q, []) := by
  obtain ⟨hsort, hkeys⟩ := hwf
  have hnd : (p.by_id.map (·.1)).Nodup := keys_nodup _ hsort
  have hidsnd : (p.satisfy_base_fee_ids b).Nodup :=
    (satisfyGo_sublist b none p.by_id).nodup hnd
  have hpres : ∀ id ∈ p.satisfy_base_fee_ids b, ∃ t, lookupId p.by_id id = some t := by
    intro id hid
    obtain ⟨e, he, hekey⟩ := List.mem_map.mp (satisfyGo_mem_keys _ _ _ _ hid)
    exact ⟨e.2, by rw [← hekey]; exact mem_lookupId_of_nodup _ _ _ hnd (by simpa using he)⟩
  obtain ⟨q, rem, hfold, hmap, hfilter⟩ :=
    enforce_fold_spec (p.satisfy_base_fee_ids b) p [] hnd hkeys hidsnd hpres
  have hqsort : List.Pairwise (fun a c => idLt a.1 c.1 = true) q.by_id := by
    rw [hfilter]
    exact List.Pairwise.sublist (List.filter_sublist _) hsort
  have hqnd : (q.by_id.map (·.1)).Nodup := by
    rw [hfilter]
    exact ((List.filter_sublist _).map _).nodup hnd
  refine ⟨q, rem, ?_, hmap, hfilter, ?_⟩
  · unfold ParkedPool.enforce_basefee
    rw [hfold]
    simp
  · have hempty : q.satisfy_base_fee_ids b = [] := by
      rw [List.eq_nil_iff_forall_not_mem]
      rintro ⟨s, n⟩ hx
      obtain ⟨⟨t, hlkq, hfe⟩, hallq⟩ := (satisfy_mem_iff b s n q.by_id hqsort).mp hx
      have hmemqe := lookupId_some_mem _ _ _ hlkq
      rw [hfilter] at hmemqe
      have hpe := List.mem_filter.mp hmemqe
      have hmemp : (s, n) ∈ p.satisfy_base_fee_ids b := by
        apply (satisfy_mem_iff b s n p.by_id hsort).mpr
        refine ⟨⟨t, mem_lookupId_of_nodup _ _ _ hnd hpe.1, hfe⟩, ?_⟩
        intro n' t' hlt hlkp'
        by_contra hfail
        rw [Nat.not_le] at hfail
        have hnot : ¬ (s, n') ∈ p.satisfy_base_fee_ids b := by
          intro hin
          obtain ⟨⟨t'', hlk'', hfe''⟩, _⟩ := (satisfy_mem_iff b s n' p.by_id hsort).mp hin
          rw [hlkp'] at hlk''
          injection hlk'' with hv
          rw [← hv] at hfe''
          omega
        have hinq : ((s, n'), t') ∈ q.by_id := by
          rw [hfilter]
          exact List.mem_filter.mpr ⟨lookupId_some_mem _ _ _ hlkp', by simpa using hnot⟩
        have := hallq n' t' hlt (mem_lookupId_of_nodup _ _ _ hqnd hinq)
        omega
      have := hpe.2
      simp at this
      exact this hmemp
    unfold ParkedPool.enforce_basefee
    rw [hempty]
    rfl

/-- C10 witness: with basefee 1 every transaction of `poolBase` satisfies,
`enforce_basefee` empties the pool, and from `(0, 2) ∈ removed` with the
lower nonce 1 resident it follows that `(0, 1)` is removed and not left
resident. -/
theorem enforce_no_nonce_gap_witness :
    ((0 : Nat), (1 : Nat)) ∈ (List.map Tx.id
      [⟨0, 0, 10, 2, 0⟩, ⟨0, 1, 1, 3, 0⟩, ⟨0, 2, 20, 4, 0⟩, ⟨1, 0, 3, 5, 0⟩]) ∧
    ¬ ((0 : Nat), (1 : Nat)) ∈ (⟨4, [], [], 0⟩ : ParkedPool).by_id.map (·.1) :=
  enforce_no_nonce_gap poolBase 1 (by decide) ⟨4, [], [], 0⟩
    [⟨0, 0, 10, 2, 0⟩, ⟨0, 1, 1, 3, 0⟩, ⟨0, 2, 20, 4, 0⟩, ⟨1, 0, 3, 5, 0⟩]
    (by decide) 0 2 1 ⟨1, ⟨0, 1, 1, 3, 0⟩⟩ (by decide) (by decide) (by decide)

/-- C7 witness: the enforcement specification applied to `poolBase` with
basefee 5. -/
theorem enforce_basefee_spec_witness :
    ∃ q rem, poolBase.enforce_basefee 5 = some (q, rem) ∧
      rem.map Tx.id = poolBase.satisfy_base_fee_ids 5 ∧
      q.by_id = poolBase.by_id.filter
        (fun e => ¬ e.1 ∈ poolBase.satisfy_base_fee_ids 5) ∧
      q.enforce_basefee 5 = some (q, []) :=
  enforce_basefee_spec poolBase 5 (by decide)

/-! ### Permutation structure of the two indexes -/

theorem insertById_perm (id : TransactionId) (t : ParkedTx)
    (l : List (TransactionId × ParkedTx)) :
    (insertById id t l).Perm ((id, t) :: l) := by
  induction l with
  | nil => exact List.Perm.refl _
  | cons e rest ih =>
      rw [insertById]
      by_cases h : idLt id e.1 = true
      · rw [if_pos h]
      · rw [if_neg h]
        exact (ih.cons e).trans (List.Perm.swap _ _ _)

theorem eraseById_perm_of_lookup (l : List (TransactionId × ParkedTx))
    (id : TransactionId) (t : ParkedTx) (h : lookupId l id = some t) :
    l.Perm ((id, t) :: eraseById id l) := by
  induction l with
  | nil => simp [lookupId] at h
  | cons e rest ih =>
      rw [lookupId_cons] at h
      by_cases he : e.1 = id
      · rw [if_pos he] at h
        injection h with h
        rw [show eraseById id (e :: rest) = rest from by simp [eraseById, he]]
        have : e = (id, t) := by
          rcases e with ⟨k, v⟩
          simp at he h
          rw [he, h]
        rw [this]
      · rw [if_neg he] at h
        rw [show eraseById id (e :: rest) = e :: eraseById id rest from by
          simp [eraseById, he]]
        exact ((ih h).cons e).trans (List.Perm.swap _ _ _)

/-! ### Size consistency through every operation -/

theorem size_remove (p : ParkedPool) (id : TransactionId)
    (h : p.size_of = sizeSum p.by_id) :
    (p.remove_transaction id).2.size_of = sizeSum (p.remove_transaction id).2.by_id := by
  unfold ParkedPool.remove_transaction
  cases hlk : lookupId p.by_id id with
  | none => simpa using h
  | some t =>
      simp only []
      have hperm := eraseById_perm_of_lookup p.by_id id t hlk
      have hsum : sizeSum p.by_id =
          (t.transaction.size : Int) + sizeSum (eraseById id p.by_id) := by
        have := (hperm.map (fun e => (e.2.transaction.size : Int))).sum_eq
        simpa [sizeSum] using this
      rw [h, hsum]
      ring

theorem size_removeAll :
    ∀ (ids : List TransactionId) (p : ParkedPool) (removed : List Tx),
      p.size_of = sizeSum p.by_id →
      (removeAll p ids removed).1.size_of = sizeSum (removeAll p ids removed).1.by_id := by
  intro ids
  induction ids with
  | nil =>
      intro p removed h
      simpa [removeAll] using h
  | cons id rest ih =>
      intro p removed h
      have hq := size_remove p id h
      rcases hrt : p.remove_transaction id with ⟨otx, p'⟩
      rw [hrt] at hq
      cases otx with
      | some tx =>
          rw [show removeAll p (id :: rest) removed = removeAll p' rest (removed ++ [tx]) from by
            rw [removeAll, hrt]]
          exact ih p' _ hq
      | none =>
          rw [show removeAll p (id :: rest) removed = removeAll p' rest removed from by
            rw [removeAll, hrt]]
          exact ih p' _ hq

theorem size_removeTail :
    ∀ (ids : List TransactionId) (p : ParkedPool) (dropN : Nat) (removed : List Tx),
      p.size_of = sizeSum p.by_id →
      (removeTail p ids dropN removed).1.size_of =
        sizeSum (removeTail p ids dropN removed).1.by_id := by
  intro ids
  induction ids with
  | nil =>
      intro p dropN removed h
      simpa [removeTail] using h
  | cons id rest ih =>
      intro p dropN removed h
      have hq := size_remove p id h
      rcases hrt : p.remove_transaction id with ⟨otx, p'⟩
      rw [hrt] at hq
      cases otx with
      | some tx =>
          rw [show removeTail p (id :: rest) dropN removed =
              removeTail p' rest (wrapPred dropN) (removed ++ [tx]) from by
            rw [removeTail, hrt]]
          exact ih p' _ _ hq
      | none =>
          rw [show removeTail p (id :: rest) dropN removed =
              removeTail p' rest (wrapPred dropN) removed from by
            rw [removeTail, hrt]]
          exact ih p' _ _ hq

theorem size_truncateLoop :
    ∀ (sendersRev : List SubmissionSenderId) (p : ParkedPool) (dropN : Nat)
      (removed : List Tx), p.size_of = sizeSum p.by_id →
      (truncateLoop p sendersRev dropN removed).1.size_of =
        sizeSum (truncateLoop p sendersRev dropN removed).1.by_id := by
  intro sendersRev
  induction sendersRev with
  | nil =>
      intro p dropN removed h
      by_cases h0 : dropN = 0 <;> simpa [truncateLoop, h0] using h
  | cons s rest ih =>
      intro p dropN removed h
      by_cases h0 : dropN = 0
      · simpa [truncateLoop, h0] using h
      · rw [truncateLoop, if_neg h0]
        simp only []
        by_cases hlen : (p.get_txs_by_sender s.sender_id).length ≤ dropN
        · rw [if_pos hlen]
          exact ih _ _ _ (size_removeAll _ _ _ h)
        · rw [if_neg hlen]
          exact ih _ _ _ (size_removeTail _ _ _ _ h)

theorem enforceFold_none : ∀ (ids : List TransactionId),
    ids.foldl enforceStep none = none := by
  intro ids
  induction ids with
  | nil => rfl
  | cons id rest ih => simpa [enforceStep] using ih

theorem size_enforceFold :
    ∀ (ids : List TransactionId) (p : ParkedPool) (removed : List Tx)
      (q : ParkedPool) (rem : List Tx),
      ids.foldl enforceStep (some (p, removed)) = some (q, rem) →
      p.size_of = sizeSum p.by_id → q.size_of = sizeSum q.by_id := by
  intro ids
  induction ids with
  | nil =>
      intro p removed q rem hfold h
      injection hfold with hfold
      injection hfold with h1 _
      rw [← h1]
      exact h
  | cons id rest ih =>
      intro p removed q rem hfold h
      have hq := size_remove p id h
      rcases hrt : p.remove_transaction id with ⟨otx, p'⟩
      rw [hrt] at hq
      rw [List.foldl_cons] at hfold
      cases otx with
      | some tx =>
          rw [show enforceStep (some (p, removed)) id = some (p', removed ++ [tx]) from by
            simp [enforceStep, hrt]] at hfold
          exact ih p' _ q rem hfold hq
      | none =>
          rw [show enforceStep (some (p, removed)) id = none from by
            simp [enforceStep, hrt]] at hfold
          rw [enforceFold_none] at hfold
          exact Option.noConfusion hfold

theorem size_step (p : ParkedPool) (op : PoolOp) (p' : ParkedPool)
    (h : stepOp p op = some p') (hI : p.size_of = sizeSum p.by_id) :
    p'.size_of = sizeSum p'.by_id := by
  cases op with
  | add tx =>
      simp only [stepOp] at h
      unfold ParkedPool.add_transaction at h
      by_cases hc : containsId p.by_id tx.id = true
      · rw [if_pos hc] at h
        exact Option.noConfusion h
      · rw [if_neg hc] at h
        injection h with h
        rw [← h]
        have hperm := (insertById_perm tx.id ⟨p.submission_id, tx⟩ p.by_id).map
          (fun e => (e.2.transaction.size : Int))
        have hsum : sizeSum (insertById tx.id ⟨p.submission_id, tx⟩ p.by_id) =
            (tx.size : Int) + sizeSum p.by_id := by
          simpa [sizeSum] using hperm.sum_eq
        simp only [hsum, hI]
        ring
  | remove id =>
      simp only [stepOp] at h
      injection h with h
      rw [← h]
      exact size_remove p id hI
  | truncate limit =>
      simp only [stepOp] at h
      unfold ParkedPool.truncate_pool at h
      injection h with h
      by_cases hlen : p.len ≤ limit.max_txs
      · rw [if_pos hlen] at h
        rw [← h]
        exact hI
      · rw [if_neg hlen] at h
        rw [← h]
        exact size_truncateLoop _ _ _ _ hI
  | basefee b =>
      simp only [stepOp] at h
      cases henf : p.enforce_basefee b with
      | none => rw [henf] at h; exact Option.noConfusion h
      | some r =>
          rw [henf] at h
          injection h with h
          rcases r with ⟨q, rem⟩
          unfold ParkedPool.enforce_basefee at henf
          rw [← h]
          exact size_enforceFold _ _ _ _ _ henf hI

theorem size_run :
    ∀ (ops : List PoolOp) (p q : ParkedPool), runOps ops p = some q →
      p.size_of = sizeSum p.by_id → q.size_of = sizeSum q.by_id := by
  intro ops
  induction ops with
  | nil =>
      intro p q hrun h
      injection hrun with hrun
      rw [← hrun]
      exact h
  | cons op rest ih =>
      intro p q hrun h
      rw [show runOps (op :: rest) p = stepOp p op >>= runOps rest from by
        simp [runOps, List.foldlM_cons]] at hrun
      cases hstep : stepOp p op with
      | none => rw [hstep] at hrun; exact Option.noConfusion hrun
      | some p₁ =>
          rw [hstep] at hrun
          exact ih p₁ q hrun (size_step p op p₁ hstep h)

/-- C9: for every reachable pool state (any successful sequence of public
operations from the empty pool), `size_of` equals the sum of the resident
transactions' reported sizes: `add_transaction` adds the inserted size and
every removal path (`remove_transaction`, `truncate_pool`,
`enforce_basefee`) subtracts the removed entry's size, whose `size()` is a
stable field of the embedded transaction. -/
theorem size_consistency_reachable (ops : List PoolOp) (p : ParkedPool)
    (h : runOps ops emptyPool = some p) :
    p.size_of = sizeSum p.by_id :=
  size_run ops emptyPool p h rfl

/-- C9 witness: after adding two transactions and removing the first, the
tracker holds 3, the size of the remaining transaction. -/
theorem size_consistency_reachable_witness :
    (⟨2, [((0, 1), ⟨1, txW1⟩)], [⟨1, txW1⟩], 3⟩ : ParkedPool).size_of =
      sizeSum (⟨2, [((0, 1), ⟨1, txW1⟩)], [⟨1, txW1⟩], 3⟩ : ParkedPool).by_id :=
  size_consistency_reachable [.add txW0, .add txW1, .remove (0, 0)]
    ⟨2, [((0, 1), ⟨1, txW1⟩)], [⟨1, txW1⟩], 3⟩ (by decide)

/-! ### The bijection invariant -/

theorem parkedCmp_self (t : ParkedTx) : parkedCmp t t = Ordering.eq :=
  (parkedCmp_eq_iff t t).mpr ⟨rfl, rfl⟩

theorem bestInsert_eq_cons (t : ParkedTx) (l : List ParkedTx)
    (h : ∀ u ∈ l, parkedCmp t u ≠ Ordering.eq) : bestInsert t l = t :: l := by
  unfold bestInsert
  rw [if_neg]
  intro hc
  rw [List.any_eq_true] at hc
  obtain ⟨u, hu, heq⟩ := hc
  exact h u hu (by simpa using heq)

theorem bestErase_eq_erase (t : ParkedTx) (l : List ParkedTx)
    (huniq : ∀ u ∈ l, parkedCmp t u = Ordering.eq → u = t) :
    bestErase t l = l.erase t := by
  induction l with
  | nil => rfl
  | cons u rest ih =>
      by_cases hc : parkedCmp t u = Ordering.eq
      · have hu : u = t := huniq u (by simp) hc
        rw [show bestErase t (u :: rest) = rest from by simp [bestErase, hc], hu,
          List.erase_cons_head]
      · have hne : u ≠ t := by
          intro he
          rw [he] at hc
          exact hc (parkedCmp_self t)
        rw [show bestErase t (u :: rest) = u :: bestErase t rest from by
            simp [bestErase, hc],
          List.erase_cons_tail (by simp [hne]), ih (fun v hv => huniq v (by simp [hv]))]

theorem bij_add (m : Nat) (p p' : ParkedPool) (tx : Tx) (hm : m < U64)
    (h : p.add_transaction tx = some p') (hI : BijInv m p) : BijInv (m + 1) p' := by
  obtain ⟨hc, hlt, hnd, hperm⟩ := hI
  unfold ParkedPool.add_transaction at h
  by_cases hcon : containsId p.by_id tx.id = true
  · rw [if_pos hcon] at h
    exact Option.noConfusion h
  · rw [if_neg hcon] at h
    injection h with h
    subst h
    have hcm : p.submission_id = m := by rw [hc, Nat.mod_eq_of_lt hm]
    have hvals : ((insertById tx.id ⟨p.submission_id, tx⟩ p.by_id).map (·.2)).Perm
        ((⟨p.submission_id, tx⟩ : ParkedTx) :: p.by_id.map (·.2)) := by
      simpa using (insertById_perm tx.id ⟨p.submission_id, tx⟩ p.by_id).map (·.2)
    have hfresh : ∀ u ∈ p.best, parkedCmp (⟨p.submission_id, tx⟩ : ParkedTx) u ≠
        Ordering.eq := by
      intro u hu heq
      have hsub := ((parkedCmp_eq_iff _ u).mp heq).2
      have := hlt u (hperm.mem_iff.mpr hu)
      rw [← hsub, hcm] at this
      exact lt_irrefl m this
    refine ⟨?_, ?_, ?_, ?_⟩
    · show (p.submission_id + 1) % U64 = (m + 1) % U64
      rw [hcm]
    · intro u hu
      rcases List.mem_cons.mp (hvals.mem_iff.mp hu) with h1 | h1
      · rw [h1]
        simpa [hcm] using Nat.lt_succ_self m
      · exact Nat.lt_succ_of_lt (hlt u h1)
    · have h2 := (hvals.map (·.submission_id)).nodup_iff
      apply h2.mpr
      rw [List.map_cons, List.nodup_cons]
      refine ⟨?_, hnd⟩
      intro hmem
      obtain ⟨u, hu, husub⟩ := List.mem_map.mp hmem
      have := hlt u hu
      rw [husub, hcm] at this
      exact lt_irrefl m this
    · show ((insertById tx.id ⟨p.submission_id, tx⟩ p.by_id).map (·.2)).Perm
        (bestInsert ⟨p.submission_id, tx⟩ p.best)
      rw [bestInsert_eq_cons _ _ hfresh]
      exact hvals.trans (hperm.cons _)

theorem bij_remove (m : Nat) (p : ParkedPool) (id : TransactionId)
    (hI : BijInv m p) : BijInv m (p.remove_transaction id).2 := by
  obtain ⟨hc, hlt, hnd, hperm⟩ := hI
  unfold ParkedPool.remove_transaction
  cases hlk : lookupId p.by_id id with
  | none => exact ⟨hc, hlt, hnd, hperm⟩
  | some t =>
      simp only []
      have hvals : (p.by_id.map (·.2)).Perm (t :: (eraseById id p.by_id).map (·.2)) := by
        simpa using (eraseById_perm_of_lookup p.by_id id t hlk).map (·.2)
      have htmem : t ∈ p.by_id.map (·.2) := hvals.mem_iff.mpr (by simp)
      have htbest : t ∈ p.best := hperm.mem_iff.mp htmem
      have hndbest : (p.best.map (·.submission_id)).Nodup :=
        ((hperm.map (·.submission_id)).nodup_iff).mp hnd
      have huniq : ∀ u ∈ p.best, parkedCmp t u = Ordering.eq → u = t := by
        intro u hu heq
        have hsub : u.submission_id = t.submission_id :=
          ((parkedCmp_eq_iff t u).mp heq).2.symm
        exact List.inj_on_of_nodup_map hndbest hu htbest hsub
      refine ⟨hc, ?_, ?_, ?_⟩
      · intro u hu
        exact hlt u (hvals.mem_iff.mpr (by simp [hu]))
      · have h2 := (hvals.map (·.submission_id)).nodup_iff.mp hnd
        rw [List.map_cons, List.nodup_cons] at h2
        exact h2.2
      · show ((eraseById id p.by_id).map (·.2)).Perm (bestErase t p.best)
        rw [bestErase_eq_erase t p.best huniq]
        have h4 : ((p.by_id.map (·.2)).erase t).Perm (p.best.erase t) := hperm.erase t
        have h5 : ((p.by_id.map (·.2)).erase t).Perm
            ((eraseById id p.by_id).map (·.2)) := by
          have := hvals.erase t
          rw [List.erase_cons_head] at this
          exact this
        exact h5.symm.trans h4

/-! ### Preservation of a removal-closed invariant through the loops -/

theorem preserve_removeAll (P : ParkedPool → Prop)
    (hP : ∀ p id, P p → P (p.remove_transaction id).2) :
    ∀ (ids : List TransactionId) (p : ParkedPool) (removed : List Tx),
      P p → P (removeAll p ids removed).1 := by
  intro ids
  induction ids with
  | nil =>
      intro p removed h
      simpa [removeAll] using h
  | cons id rest ih =>
      intro p removed h
      have hq := hP p id h
      rcases hrt : p.remove_transaction id with ⟨otx, p'⟩
      rw [hrt] at hq
      cases otx with
      | some tx =>
          rw [show removeAll p (id :: rest) removed = removeAll p' rest (removed ++ [tx]) from by
            rw [removeAll, hrt]]
          exact ih p' _ hq
      | none =>
          rw [show removeAll p (id :: rest) removed = removeAll p' rest removed from by
            rw [removeAll, hrt]]
          exact ih p' _ hq

theorem preserve_removeTail (P : ParkedPool → Prop)
    (hP : ∀ p id, P p → P (p.remove_transaction id).2) :
    ∀ (ids : List TransactionId) (p : ParkedPool) (dropN : Nat) (removed : List Tx),
      P p → P (removeTail p ids dropN removed).1 := by
  intro ids
  induction ids with
  | nil =>
      intro p dropN removed h
      simpa [removeTail] using h
  | cons id rest ih =>
      intro p dropN removed h
      have hq := hP p id h
      rcases hrt : p.remove_transaction id with ⟨otx, p'⟩
      rw [hrt] at hq
      cases otx with
      | some tx =>
          rw [show removeTail p (id :: rest) dropN removed =
              removeTail p' rest (wrapPred dropN) (removed ++ [tx]) from by
            rw [removeTail, hrt]]
          exact ih p' _ _ hq
      | none =>
          rw [show removeTail p (id :: rest) dropN removed =
              removeTail p' rest (wrapPred dropN) removed from by
            rw [removeTail, hrt]]
          exact ih p' _ _ hq

theorem preserve_truncateLoop (P : ParkedPool → Prop)
    (hP : ∀ p id, P p → P (p.remove_transaction id).2) :
    ∀ (sendersRev : List SubmissionSenderId) (p : ParkedPool) (dropN : Nat)
      (removed : List Tx), P p → P (truncateLoop p sendersRev dropN removed).1 := by
  intro sendersRev
  induction sendersRev with
  | nil =>
      intro p dropN removed h
      by_cases h0 : dropN = 0 <;> simpa [truncateLoop, h0] using h
  | cons s rest ih =>
      intro p dropN removed h
      by_cases h0 : dropN = 0
      · simpa [truncateLoop, h0] using h
      · rw [truncateLoop, if_neg h0]
        simp only []
        by_cases hlen : (p.get_txs_by_sender s.sender_id).length ≤ dropN
        · rw [if_pos hlen]
          exact ih _ _ _ (preserve_removeAll P hP _ _ _ h)
        · rw [if_neg hlen]
          exact ih _ _ _ (preserve_removeTail P hP _ _ _ _ h)

theorem preserve_enforceFold (P : ParkedPool → Prop)
    (hP : ∀ p id, P p → P (p.remove_transaction id).2) :
    ∀ (ids : List TransactionId) (p : ParkedPool) (removed : List Tx)
      (q : ParkedPool) (rem : List Tx),
      ids.foldl enforceStep (some (p, removed)) = some (q, rem) → P p → P q := by
  intro ids
  induction ids with
  | nil =>
      intro p removed q rem hfold h
      injection hfold with hfold
      injection hfold with h1 _
      rw [← h1]
      exact h
  | cons id rest ih =>
      intro p removed q rem hfold h
      have hq := hP p id h
      rcases hrt : p.remove_transaction id with ⟨otx, p'⟩
      rw [hrt] at hq
      rw [List.foldl_cons] at hfold
      cases otx with
      | some tx =>
          rw [show enforceStep (some (p, removed)) id = some (p', removed ++ [tx]) from by
            simp [enforceStep, hrt]] at hfold
          exact ih p' _ q rem hfold hq
      | none =>
          rw [show enforceStep (some (p, removed)) id = none from by
            simp [enforceStep, hrt]] at hfold
          rw [enforceFold_none] at hfold
          exact Option.noConfusion hfold

theorem bij_run :
    ∀ (ops : List PoolOp) (m : Nat) (p q : ParkedPool), BijInv m p →
      m + addCount ops ≤ U64 → runOps ops p = some q →
      BijInv (m + addCount ops) q := by
  intro ops
  induction ops with
  | nil =>
      intro m p q hI _ hrun
      injection hrun with hrun
      rw [← hrun]
      simpa [addCount] using hI
  | cons op rest ih =>
      intro m p q hI hb hrun
      rw [show runOps (op :: rest) p = stepOp p op >>= runOps rest from by
        simp [runOps, List.foldlM_cons]] at hrun
      cases hstep : stepOp p op with
      | none => rw [hstep] at hrun; exact Option.noConfusion hrun
      | some p₁ =>
          rw [hstep] at hrun
          cases op with
          | add tx =>
              have hcount : addCount (PoolOp.add tx :: rest) = addCount rest + 1 := by
                simp [addCount, List.countP_cons]
              rw [hcount] at hb ⊢
              have hm : m < U64 := by omega
              have hI₁ : BijInv (m + 1) p₁ :=
                bij_add m p p₁ tx hm (by simpa [stepOp] using hstep) hI
              have := ih (m + 1) p₁ q hI₁ (by omega) hrun
              rw [show m + (addCount rest + 1) = m + 1 + addCount rest from by omega]
              exact this
          | remove id =>
              have hcount : addCount (PoolOp.remove id :: rest) = addCount rest := by
                simp [addCount, List.countP_cons]
              rw [hcount] at hb ⊢
              have hp₁ : p₁ = (p.remove_transaction id).2 := by
                simp only [stepOp] at hstep
                injection hstep with h
                exact h.symm
              exact ih m p₁ q (hp₁ ▸ bij_remove m p id hI) hb hrun
          | truncate limit =>
              have hcount : addCount (PoolOp.truncate limit :: rest) = addCount rest := by
                simp [addCount, List.countP_cons]
              rw [hcount] at hb ⊢
              have hI₁ : BijInv m p₁ := by
                simp only [stepOp] at hstep
                injection hstep with h
                rw [← h]
                unfold ParkedPool.truncate_pool
                by_cases hlen : p.len ≤ limit.max_txs
                · rw [if_pos hlen]
                  exact hI
                · rw [if_neg hlen]
                  exact preserve_truncateLoop (BijInv m) (fun r id hr => bij_remove m r id hr)
                    _ _ _ _ hI
              exact ih m p₁ q hI₁ hb hrun
          | basefee b =>
              have hcount : addCount (PoolOp.basefee b :: rest) = addCount rest := by
                simp [addCount, List.countP_cons]
              rw [hcount] at hb ⊢
              have hI₁ : BijInv m p₁ := by
                simp only [stepOp] at hstep
                cases henf : p.enforce_basefee b with
                | none => rw [henf] at hstep; exact Option.noConfusion hstep
                | some r =>
                    rw [henf] at hstep
                    injection hstep with h
                    rcases r with ⟨q₁, rem⟩
                    unfold ParkedPool.enforce_basefee at henf
                    rw [← h]
                    exact preserve_enforceFold (BijInv m)
                      (fun r' id hr => bij_remove m r' id hr) _ _ _ _ _ henf hI
              exact ih m p₁ q hI₁ hb hrun

/-- C1 (amended): for every pool state reachable from the empty pool by a
sequence of public operations containing at most `2^64` `add_transaction`
calls — so that no two live entries can share a wrapped submission id —
`by_id` and `best` hold the same multiset of entries, and in particular the
same number of entries. -/
theorem bijection_reachable_bounded_adds (ops : List PoolOp) (p : ParkedPool)
    (hadds : addCount ops ≤ U64) (hrun : runOps ops emptyPool = some p) :
    (p.by_id.map (·.2)).Perm p.best ∧ p.by_id.length = p.best.length := by
  have h0 : BijInv 0 emptyPool := by
    refine ⟨by simp [emptyPool], by simp [emptyPool], by simp [emptyPool], ?_⟩
    simp [emptyPool]
  have := bij_run ops 0 emptyPool p h0 (by simpa using hadds) hrun
  refine ⟨this.2.2.2, ?_⟩
  have hlen := this.2.2.2.length_eq
  simpa using hlen

/-- C1 witness: a three-operation run with two additions. -/
theorem bijection_reachable_bounded_adds_witness :
    ((⟨2, [((0, 1), ⟨1, txW1⟩)], [⟨1, txW1⟩], 3⟩ : ParkedPool).by_id.map (·.2)).Perm
      (⟨2, [((0, 1), ⟨1, txW1⟩)], [⟨1, txW1⟩], 3⟩ : ParkedPool).best ∧
    (⟨2, [((0, 1), ⟨1, txW1⟩)], [⟨1, txW1⟩], 3⟩ : ParkedPool).by_id.length =
      (⟨2, [((0, 1), ⟨1, txW1⟩)], [⟨1, txW1⟩], 3⟩ : ParkedPool).best.length :=
  bijection_reachable_bounded_adds [.add txW0, .add txW1, .remove (0, 0)]
    ⟨2, [((0, 1), ⟨1, txW1⟩)], [⟨1, txW1⟩], 3⟩
    (by norm_num [addCount, List.countP_cons, U64]) (by decide)

/-! ### The submission-counter wrap-around run -/

theorem cex_mid_step (i : Nat) (q : ParkedPool) (hi : i + 1 ≤ U64 - 1)
    (hq : CexInv i q) :
    ∃ q', stepOp q (PoolOp.add (cexMid i)) = some q' ∧ CexInv (i + 1) q' := by
  obtain ⟨hcnt, hlenb, hlenbest, hsubs, hex, hkeys⟩ := hq
  have hU : 0 < U64 := by norm_num [U64]
  have h1i : 1 + i < U64 := by omega
  have hcm : q.submission_id = 1 + i := by rw [hcnt, Nat.mod_eq_of_lt h1i]
  have hcon : containsId q.by_id (cexMid i).id = false := by
    rw [containsId_eq_false_iff]
    intro e he heq
    have hk := hkeys e he
    rw [heq] at hk
    have h2 := hk.2 rfl
    exact absurd h2 (lt_irrefl i)
  have hbestcons : bestInsert ⟨q.submission_id, cexMid i⟩ q.best =
      (⟨q.submission_id, cexMid i⟩ : ParkedTx) :: q.best := by
    apply bestInsert_eq_cons
    intro u hu heq
    have hsub := ((parkedCmp_eq_iff _ u).mp heq).2
    have := hsubs u hu
    rw [← hsub, hcm] at this
    exact lt_irrefl _ this
  have hinsperm := insertById_perm (cexMid i).id ⟨q.submission_id, cexMid i⟩ q.by_id
  refine ⟨{ submission_id := (q.submission_id + 1) % U64
            by_id := insertById (cexMid i).id ⟨q.submission_id, cexMid i⟩ q.by_id
            best := bestInsert ⟨q.submission_id, cexMid i⟩ q.best
            size_of := q.size_of + (cexMid i).size }, ?_, ?_⟩
  · simp only [stepOp]
    unfold ParkedPool.add_transaction
    rw [if_neg (by simp [hcon])]
  · refine ⟨?_, ?_, ?_, ?_, ?_, ?_⟩
    · show (q.submission_id + 1) % U64 = (1 + (i + 1)) % U64
      rw [hcm]
      congr 1
    · show (insertById (cexMid i).id ⟨q.submission_id, cexMid i⟩ q.by_id).length = 1 + (i + 1)
      have := hinsperm.length_eq
      simp only [List.length_cons] at this
      omega
    · show (bestInsert ⟨q.submission_id, cexMid i⟩ q.best).length = 1 + (i + 1)
      rw [hbestcons]
      simp only [List.length_cons]
      omega
    · show ∀ u ∈ bestInsert ⟨q.submission_id, cexMid i⟩ q.best,
        u.submission_id < 1 + (i + 1)
      rw [hbestcons]
      intro u hu
      rcases List.mem_cons.mp hu with h1 | h1
      · rw [h1]
        simp [hcm]
      · have := hsubs u h1
        omega
    · show ∃ u ∈ bestInsert ⟨q.submission_id, cexMid i⟩ q.best,
        u.submission_id = 0 ∧ u.transaction.max_fee_per_gas = 5
      rw [hbestcons]
      obtain ⟨u, hu, h0, h5⟩ := hex
      exact ⟨u, by simp [hu], h0, h5⟩
    · show ∀ e ∈ insertById (cexMid i).id ⟨q.submission_id, cexMid i⟩ q.by_id,
        e.1.1 ≤ 1 ∧ (e.1.1 = 1 → e.1.2 < i + 1)
      intro e he
      rcases List.mem_cons.mp (hinsperm.mem_iff.mp he) with h1 | h1
      · rw [h1]
        exact ⟨by simp [cexMid, Tx.id], fun _ => by simp [cexMid, Tx.id]⟩
      · have hk := hkeys e h1
        exact ⟨hk.1, fun hs => Nat.lt_succ_of_lt (hk.2 hs)⟩

theorem cex_mids_run :
    ∀ i, i ≤ U64 - 1 → ∃ q, runOps (cexMids i) cexStart = some q ∧ CexInv i q := by
  intro i
  induction i with
  | zero =>
      intro _
      refine ⟨cexStart, by simp [cexMids, runOps], ?_⟩
      unfold CexInv
      decide
  | succ i ih =>
      intro hi
      obtain ⟨q, hrun, hinv⟩ := ih (by omega)
      obtain ⟨q', hstep, hinv'⟩ := cex_mid_step i q hi hinv
      refine ⟨q', ?_, hinv'⟩
      rw [show cexMids (i + 1) = cexMids i ++ [PoolOp.add (cexMid i)] from by
        simp [cexMids, List.range_succ]]
      unfold runOps at hrun ⊢
      rw [List.foldlM_append, hrun]
      simp [List.foldlM_cons, hstep]

theorem runOps_cons_some (op : PoolOp) (ops : List PoolOp) (p p₁ : ParkedPool)
    (h : stepOp p op = some p₁) : runOps (op :: ops) p = runOps ops p₁ := by
  unfold runOps
  rw [List.foldlM_cons, h]
  rfl

theorem runOps_append_some (l₁ l₂ : List PoolOp) (p p₁ : ParkedPool)
    (h : runOps l₁ p = some p₁) : runOps (l₁ ++ l₂) p = runOps l₂ p₁ := by
  unfold runOps at h ⊢
  rw [List.foldlM_append, h]
  rfl

theorem runOps_single (op : PoolOp) (p : ParkedPool) : runOps [op] p = stepOp p op := by
  unfold runOps
  rw [List.foldlM_cons]
  cases stepOp p op <;> rfl

theorem addCount_add_cons (tx : Tx) (l : List PoolOp) :
    addCount (PoolOp.add tx :: l) = addCount l + 1 := by
  simp [addCount, List.countP_cons]

theorem addCount_append (l₁ l₂ : List PoolOp) :
    addCount (l₁ ++ l₂) = addCount l₁ + addCount l₂ := by
  simp [addCount, List.countP_append]

/-- C1 counterexample: the bijection claim quantifies over every reachable
state, but after `2^64 + 1` `add_transaction` calls the wrapping `u64`
submission counter reuses stamp 0: the last transaction (fee 5, stamp 0)
compares `Ordering::Equal` to the still-resident first one (fee 5, stamp 0)
under the `best` order, so `BTreeSet::insert` is a no-op while
`BTreeMap::insert` succeeds — the reachable final state has
`by_id.len() = 2^64 + 1` but `best.len() = 2^64`, and the two indexes do not
hold the same multiset. -/
theorem bijection_cex_wraparound :
    addCount cexOps = U64 + 1 ∧
    ∃ p, runOps cexOps emptyPool = some p ∧
      p.by_id.length ≠ p.best.length ∧ ¬ (p.by_id.map (·.2)).Perm p.best := by
  have hU : 0 < U64 := by norm_num [U64]
  constructor
  · have h1 : addCount (cexMids (U64 - 1)) = U64 - 1 := by
      have h3 : ∀ (n : Nat), addCount (cexMids n) = n := by
        intro n
        induction n with
        | zero => rfl
        | succ n ihn =>
            unfold addCount cexMids at ihn ⊢
            rw [List.range_succ, List.map_append, List.countP_append, ihn]
            simp [List.countP_cons]
      exact h3 (U64 - 1)
    unfold cexOps
    rw [addCount_add_cons, addCount_append, h1]
    rw [show addCount [PoolOp.add cexTxB] = 1 from rfl]
    omega
  · obtain ⟨q, hrun, hinv⟩ := cex_mids_run (U64 - 1) (le_refl _)
    obtain ⟨hcnt, hlenb, hlenbest, hsubs, hex, hkeys⟩ := hinv
    have hc0 : q.submission_id = 0 := by
      rw [hcnt, show 1 + (U64 - 1) = U64 from by omega, Nat.mod_self]
    have hcon : containsId q.by_id cexTxB.id = false := by
      rw [containsId_eq_false_iff]
      intro e he heq
      have hk := (hkeys e he).1
      rw [heq] at hk
      exact absurd hk (by norm_num [cexTxB, Tx.id])
    obtain ⟨u, hu, husub, hufee⟩ := hex
    have heq : parkedCmp ⟨q.submission_id, cexTxB⟩ u = Ordering.eq := by
      apply (parkedCmp_eq_iff _ _).mpr
      constructor
      · show cexTxB.max_fee_per_gas = u.transaction.max_fee_per_gas
        rw [hufee]
        rfl
      · rw [hc0, husub]
    have hbest : bestInsert ⟨q.submission_id, cexTxB⟩ q.best = q.best := by
      unfold bestInsert
      rw [if_pos]
      rw [List.any_eq_true]
      exact ⟨u, hu, by simp [heq]⟩
    have hstep : stepOp q (PoolOp.add cexTxB) = some
        { submission_id := (q.submission_id + 1) % U64
          by_id := insertById cexTxB.id ⟨q.submission_id, cexTxB⟩ q.by_id
          best := q.best
          size_of := q.size_of + (cexTxB.size : Int) } := by
      simp only [stepOp]
      unfold ParkedPool.add_transaction
      rw [if_neg (by simp [hcon])]
      show (some { submission_id := (q.submission_id + 1) % U64
                   by_id := insertById cexTxB.id ⟨q.submission_id, cexTxB⟩ q.by_id
                   best := bestInsert ⟨q.submission_id, cexTxB⟩ q.best
                   size_of := q.size_of + (cexTxB.size : Int) } : Option ParkedPool) = _
      rw [hbest]
    refine ⟨{ submission_id := (q.submission_id + 1) % U64
              by_id := insertById cexTxB.id ⟨q.submission_id, cexTxB⟩ q.by_id
              best := q.best
              size_of := q.size_of + (cexTxB.size : Int) }, ?_, ?_, ?_⟩
    · show runOps cexOps emptyPool = some _
      unfold cexOps
      rw [runOps_cons_some _ _ _ cexStart (by decide),
        runOps_append_some _ _ _ q hrun, runOps_single, hstep]
    · show (insertById cexTxB.id ⟨q.submission_id, cexTxB⟩ q.by_id).length ≠ q.best.length
      have hil := (insertById_perm cexTxB.id ⟨q.submission_id, cexTxB⟩ q.by_id).length_eq
      simp only [List.length_cons] at hil
      omega
    · intro hp
      have hpl := hp.length_eq
      simp only [List.length_map] at hpl
      have hil := (insertById_perm cexTxB.id ⟨q.submission_id, cexTxB⟩ q.by_id).length_eq
      simp only [List.length_cons] at hil
      omega

/-! ### The senders-by-submission-id vector -/

theorem sendersGo_spec :
    ∀ (l : List (TransactionId × ParkedTx)) (cur : SubmissionSenderId),
      (∀ e ∈ l, cur.sender_id ≤ e.2.transaction.sender) →
      List.Pairwise (fun a b => a.2.transaction.sender ≤ b.2.transaction.sender) l →
      (∀ r ∈ sendersGo cur l, cur.sender_id ≤ r.sender_id) ∧
      ((sendersGo cur l).map (·.sender_id)).Nodup ∧
      (∀ s, s ∈ (sendersGo cur l).map (·.sender_id) ↔
        s = cur.sender_id ∨ s ∈ l.map (·.2.transaction.sender)) ∧
      (∀ r ∈ sendersGo cur l,
        (r = cur ∨ ∃ e ∈ l, e.2.transaction.sender = r.sender_id ∧
          e.2.submission_id = r.submission_id) ∧
        (r.sender_id = cur.sender_id → cur.submission_id ≤ r.submission_id) ∧
        (∀ e ∈ l, e.2.transaction.sender = r.sender_id →
          e.2.submission_id ≤ r.submission_id)) := by
  intro l
  induction l with
  | nil =>
      intro cur _ _
      refine ⟨by simp [sendersGo], by simp [sendersGo], by simp [sendersGo], ?_⟩
      intro r hr
      rw [show sendersGo cur [] = [cur] from rfl] at hr
      rcases List.mem_cons.mp hr with rfl | h
      · exact ⟨Or.inl rfl, fun _ => le_refl _, by simp⟩
      · simp at h
  | cons e rest ih =>
      intro cur hge hmono
      obtain ⟨hhead, hrest⟩ := List.pairwise_cons.mp hmono
      by_cases heq : e.2.transaction.sender = cur.sender_id
      · obtain ⟨cur', hstep, hsid, hsuble, hattain, hsube⟩ : ∃ cur',
            sendersGo cur (e :: rest) = sendersGo cur' rest ∧
            cur'.sender_id = cur.sender_id ∧
            cur.submission_id ≤ cur'.submission_id ∧
            (cur' = cur ∨ (e.2.transaction.sender = cur'.sender_id ∧
              e.2.submission_id = cur'.submission_id)) ∧
            e.2.submission_id ≤ cur'.submission_id := by
          by_cases hlt : cur.submission_id < e.2.submission_id
          · refine ⟨⟨cur.sender_id, e.2.submission_id⟩, ?_, rfl, le_of_lt hlt,
              Or.inr ⟨by rw [heq], rfl⟩, le_refl _⟩
            rw [sendersGo, if_pos heq, if_pos hlt]
          · refine ⟨cur, ?_, rfl, le_refl _, Or.inl rfl, by omega⟩
            rw [sendersGo, if_pos heq, if_neg hlt]
        have hge' : ∀ x ∈ rest, cur'.sender_id ≤ x.2.transaction.sender := by
          intro x hx
          rw [hsid]
          exact hge x (by simp [hx])
        have IH := ih cur' hge' hrest
        rw [hstep]
        refine ⟨?_, IH.2.1, ?_, ?_⟩
        · intro r hr
          have := IH.1 r hr
          omega
        · intro s
          rw [IH.2.2.1 s]
          simp only [List.map_cons, List.mem_cons, heq, hsid]
          tauto
        · intro r hr
          obtain ⟨hat, hdom2, hdom3⟩ := IH.2.2.2 r hr
          refine ⟨?_, ?_, ?_⟩
          · rcases hat with h1 | ⟨e', he', h2, h3⟩
            · rcases hattain with h4 | ⟨h5, h6⟩
              · exact Or.inl (by rw [h1, h4])
              · exact Or.inr ⟨e, by simp, by rw [h1]; exact h5, by rw [h1]; exact h6⟩
            · exact Or.inr ⟨e', by simp [he'], h2, h3⟩
          · intro hrs
            have h7 : r.sender_id = cur'.sender_id := by rw [hsid]; exact hrs
            have := hdom2 h7
            omega
          · intro x hx hxs
            rcases List.mem_cons.mp hx with rfl | hx'
            · have h7 : r.sender_id = cur'.sender_id := by
                rw [hsid, ← hxs]
                exact heq
              have := hdom2 h7
              omega
            · exact hdom3 x hx' hxs
      · have hstep : sendersGo cur (e :: rest) =
            cur :: sendersGo ⟨e.2.transaction.sender, e.2.submission_id⟩ rest := by
          rw [sendersGo, if_neg heq]
        have hstrict : cur.sender_id < e.2.transaction.sender := by
          have := hge e (by simp)
          omega
        have hge' : ∀ x ∈ rest,
            (⟨e.2.transaction.sender, e.2.submission_id⟩ : SubmissionSenderId).sender_id ≤
              x.2.transaction.sender := fun x hx => hhead x hx
        have IH := ih _ hge' hrest
        have hproj : (⟨e.2.transaction.sender, e.2.submission_id⟩ :
            SubmissionSenderId).sender_id = e.2.transaction.sender := rfl
        rw [hstep]
        refine ⟨?_, ?_, ?_, ?_⟩
        · intro r hr
          rcases List.mem_cons.mp hr with rfl | hr'
          · exact le_refl _
          · have := IH.1 r hr'
            omega
        · rw [List.map_cons, List.nodup_cons]
          refine ⟨?_, IH.2.1⟩
          intro hmem
          obtain ⟨r, hr, hrs⟩ := List.mem_map.mp hmem
          have := IH.1 r hr
          omega
        · intro s
          simp only [List.map_cons, List.mem_cons, IH.2.2.1 s]
        · intro r hr
          rcases List.mem_cons.mp hr with rfl | hr'
          · refine ⟨Or.inl rfl, fun _ => le_refl _, ?_⟩
            intro x hx hxs
            rcases List.mem_cons.mp hx with rfl | hx'
            · exact absurd hxs heq
            · have h9 : e.2.transaction.sender ≤ x.2.transaction.sender := hhead x hx'
              rw [hxs] at h9
              omega
          · obtain ⟨hat, hdom2, hdom3⟩ := IH.2.2.2 r hr'
            have hrs_ge : e.2.transaction.sender ≤ r.sender_id := IH.1 r hr'
            refine ⟨?_, ?_, ?_⟩
            · rcases hat with h1 | ⟨e', he', h2, h3⟩
              · exact Or.inr ⟨e, by simp, by rw [h1], by rw [h1]⟩
              · exact Or.inr ⟨e', by simp [he'], h2, h3⟩
            · intro hrs
              have h9 : e.2.transaction.sender ≤ cur.sender_id := by
                rw [← hrs]
                exact hrs_ge
              omega
            · intro x hx hxs
              rcases List.mem_cons.mp hx with rfl | hx'
              · have h7 : r.sender_id =
                    (⟨x.2.transaction.sender, x.2.submission_id⟩ :
                      SubmissionSenderId).sender_id := hxs.symm
                have := hdom2 h7
                simpa using this
              · exact hdom3 x hx' hxs

theorem sendersAccum_spec (l : List (TransactionId × ParkedTx))
    (hmono : List.Pairwise (fun a b => a.2.transaction.sender ≤ b.2.transaction.sender) l) :
    ((sendersAccum l).map (·.sender_id)).Nodup ∧
    (∀ s, s ∈ (sendersAccum l).map (·.sender_id) ↔ s ∈ l.map (·.2.transaction.sender)) ∧
    (∀ r ∈ sendersAccum l,
      (∃ e ∈ l, e.2.transaction.sender = r.sender_id ∧
        e.2.submission_id = r.submission_id) ∧
      (∀ e ∈ l, e.2.transaction.sender = r.sender_id →
        e.2.submission_id ≤ r.submission_id)) := by
  cases l with
  | nil => refine ⟨by simp [sendersAccum], by simp [sendersAccum], by simp [sendersAccum]⟩
  | cons e rest =>
      obtain ⟨hhead, hrest⟩ := List.pairwise_cons.mp hmono
      have hge : ∀ x ∈ rest,
          (⟨e.2.transaction.sender, e.2.submission_id⟩ : SubmissionSenderId).sender_id ≤
            x.2.transaction.sender := fun x hx => hhead x hx
      have H := sendersGo_spec rest ⟨e.2.transaction.sender, e.2.submission_id⟩ hge hrest
      have hacc : sendersAccum (e :: rest) =
          sendersGo ⟨e.2.transaction.sender, e.2.submission_id⟩ rest := rfl
      rw [hacc]
      refine ⟨H.2.1, ?_, ?_⟩
      · intro s
        rw [H.2.2.1 s]
        simp only [List.map_cons, List.mem_cons]
      · intro r hr
        obtain ⟨hat, hdom2, hdom3⟩ := H.2.2.2 r hr
        refine ⟨?_, ?_⟩
        · rcases hat with h1 | ⟨e', he', h2, h3⟩
          · exact ⟨e, by simp, by rw [h1], by rw [h1]⟩
          · exact ⟨e', by simp [he'], h2, h3⟩
        · intro x hx hxs
          rcases List.mem_cons.mp hx with rfl | hx'
          · have h7 : r.sender_id =
                (⟨x.2.transaction.sender, x.2.submission_id⟩ :
                  SubmissionSenderId).sender_id := hxs.symm
            have := hdom2 h7
            simpa using this
          · exact hdom3 x hx' hxs

theorem insertBySubDesc_perm (x : SubmissionSenderId) (l : List SubmissionSenderId) :
    (insertBySubDesc x l).Perm (x :: l) := by
  induction l with
  | nil => exact List.Perm.refl _
  | cons y rest ih =>
      rw [insertBySubDesc]
      by_cases hc : y.submission_id ≤ x.submission_id
      · rw [if_pos hc]
      · rw [if_neg hc]
        exact (ih.cons y).trans (List.Perm.swap _ _ _)

theorem sortBySubDesc_perm (l : List SubmissionSenderId) :
    (sortBySubDesc l).Perm l := by
  induction l with
  | nil => exact List.Perm.refl _
  | cons x rest ih =>
      rw [sortBySubDesc]
      exact (insertBySubDesc_perm x (sortBySubDesc rest)).trans (ih.cons x)

theorem insertBySubDesc_pairwise (x : SubmissionSenderId) (l : List SubmissionSenderId)
    (h : List.Pairwise (fun a b => b.submission_id ≤ a.submission_id) l) :
    List.Pairwise (fun a b => b.submission_id ≤ a.submission_id) (insertBySubDesc x l) := by
  induction l with
  | nil => simp [insertBySubDesc]
  | cons y rest ih =>
      obtain ⟨hy, hrest⟩ := List.pairwise_cons.mp h
      rw [insertBySubDesc]
      by_cases hc : y.submission_id ≤ x.submission_id
      · rw [if_pos hc]
        refine List.Pairwise.cons ?_ h
        intro z hz
        rcases List.mem_cons.mp hz with rfl | hz'
        · exact hc
        · have := hy z hz'
          omega
      · rw [if_neg hc]
        refine List.Pairwise.cons ?_ (ih hrest)
        intro z hz
        have hz2 := (insertBySubDesc_perm x rest).mem_iff.mp hz
        rcases List.mem_cons.mp hz2 with rfl | hz'
        · omega
        · exact hy z hz'

theorem sortBySubDesc_pairwise (l : List SubmissionSenderId) :
    List.Pairwise (fun a b => b.submission_id ≤ a.submission_id) (sortBySubDesc l) := by
  induction l with
  | nil => simp [sortBySubDesc]
  | cons x rest ih =>
      rw [sortBySubDesc]
      exact insertBySubDesc_pairwise x _ ih

theorem mem_of_getLast?_some {α : Type} :
    ∀ (l : List α) (a : α), l.getLast? = some a → a ∈ l := by
  intro l
  induction l with
  | nil => simp
  | cons x rest ih =>
      intro a h
      cases rest with
      | nil =>
          simp at h
          simp [h]
      | cons y rest' =>
          rw [List.getLast?_cons_cons] at h
          exact List.mem_cons.mpr (Or.inr (ih a h))

theorem pairwise_getLast {α : Type} {R : α → α → Prop} :
    ∀ (l : List α) (a : α), List.Pairwise R l → l.getLast? = some a →
      ∀ b ∈ l, b = a ∨ R b a := by
  intro l
  induction l with
  | nil => simp
  | cons x rest ih =>
      intro a hpw hlast b hb
      cases rest with
      | nil =>
          simp at hlast hb
          subst hb
          exact Or.inl hlast
      | cons y rest' =>
          rw [List.getLast?_cons_cons] at hlast
          obtain ⟨hx, hpw'⟩ := List.pairwise_cons.mp hpw
          rcases List.mem_cons.mp hb with rfl | hb'
          · exact Or.inr (hx a (mem_of_getLast?_some _ a hlast))
          · exact ih a hpw' hlast b hb'

/-- C3 (amended): for a well-formed pool, `get_senders_by_submission_id`
returns one record per distinct resident sender, each carrying that sender's
maximum `submission_id`, and the returned vector is sorted *descending* by
that maximum submission id — the most-recently-active sender first, the
least-recently-active sender last (the reversed `Ord` of
`SubmissionSenderId` makes `into_sorted_vec` produce descending submission
ids). -/
theorem get_senders_spec_descending (p : ParkedPool) (hwf : p.Wf) :
    (p.get_senders_by_submission_id.map (·.sender_id)).Nodup ∧
    (∀ s, s ∈ p.get_senders_by_submission_id.map (·.sender_id) ↔
      s ∈ p.by_id.map (·.2.transaction.sender)) ∧
    (∀ r ∈ p.get_senders_by_submission_id,
      (∃ e ∈ p.by_id, e.2.transaction.sender = r.sender_id ∧
        e.2.submission_id = r.submission_id) ∧
      (∀ e ∈ p.by_id, e.2.transaction.sender = r.sender_id →
        e.2.submission_id ≤ r.submission_id)) ∧
    List.Chain' (fun a b => b.submission_id ≤ a.submission_id)
      p.get_senders_by_submission_id := by
  obtain ⟨hsort, hkeys⟩ := hwf
  have hmono : List.Pairwise
      (fun a b => a.2.transaction.sender ≤ b.2.transaction.sender) p.by_id := by
    apply List.Pairwise.imp_of_mem ?_ hsort
    intro a b ha hb hR
    have ha1 : a.1.1 = a.2.transaction.sender := by rw [hkeys a ha]; rfl
    have hb1 : b.1.1 = b.2.transaction.sender := by rw [hkeys b hb]; rfl
    have := (idLt_iff a.1 b.1).mp hR
    rw [ha1, hb1] at this
    rcases this with h | ⟨h, _⟩ <;> omega
  have HA := sendersAccum_spec p.by_id hmono
  have hperm : (p.get_senders_by_submission_id).Perm (sendersAccum p.by_id) :=
    sortBySubDesc_perm _
  refine ⟨?_, ?_, ?_, ?_⟩
  · exact ((hperm.map (·.sender_id)).nodup_iff).mpr HA.1
  · intro s
    exact ((hperm.map (·.sender_id)).mem_iff).trans (HA.2.1 s)
  · intro r hr
    exact HA.2.2 r (hperm.mem_iff.mp hr)
  · exact (sortBySubDesc_pairwise _).chain'

/-- C3 witness: the specification applied to `poolTwo`. -/
theorem get_senders_spec_descending_witness :
    (poolTwo.get_senders_by_submission_id.map (·.sender_id)).Nodup ∧
    (∀ s, s ∈ poolTwo.get_senders_by_submission_id.map (·.sender_id) ↔
      s ∈ poolTwo.by_id.map (·.2.transaction.sender)) ∧
    (∀ r ∈ poolTwo.get_senders_by_submission_id,
      (∃ e ∈ poolTwo.by_id, e.2.transaction.sender = r.sender_id ∧
        e.2.submission_id = r.submission_id) ∧
      (∀ e ∈ poolTwo.by_id, e.2.transaction.sender = r.sender_id →
        e.2.submission_id ≤ r.submission_id)) ∧
    List.Chain' (fun a b => b.submission_id ≤ a.submission_id)
      poolTwo.get_senders_by_submission_id :=
  get_senders_spec_descending poolTwo (by decide)

/-- C4 (amended): when truncation is due (`len > max_txs`), `truncate_pool`
consumes the `get_senders_by_submission_id` vector by popping from its back
(embedded as recursion over the reversed vector), and since the vector is
sorted descending by newest submission id, the sender popped — and thus
evicted from — first is the *least-recently-active* one: the back record's
submission id is minimal among all records. -/
theorem truncate_first_pop_least_recent (p : ParkedPool) (limit : SubPoolLimit)
    (hover : limit.max_txs < p.len) (r : SubmissionSenderId)
    (hlast : p.get_senders_by_submission_id.getLast? = some r) :
    (∀ r' ∈ p.get_senders_by_submission_id, r.submission_id ≤ r'.submission_id) ∧
    p.get_senders_by_submission_id.reverse.head? = some r ∧
    p.truncate_pool limit =
      truncateLoop p p.get_senders_by_submission_id.reverse
        (p.len - limit.max_txs) [] := by
  refine ⟨?_, ?_, ?_⟩
  · intro r' hr'
    have hpw : List.Pairwise (fun a b => b.submission_id ≤ a.submission_id)
        p.get_senders_by_submission_id := sortBySubDesc_pairwise _
    rcases pairwise_getLast _ r hpw hlast r' hr' with rfl | h
    · exact le_refl _
    · exact h
  · rw [List.head?_reverse]
    exact hlast
  · unfold ParkedPool.truncate_pool
    rw [if_neg (by omega)]

/-- C4 witness: truncating `poolTwo` (senders 0 and 1, newest submission ids
0 and 1) to one transaction: the popped-first record is sender 0's, whose
submission id 0 is minimal. -/
theorem truncate_first_pop_least_recent_witness :
    (∀ r' ∈ poolTwo.get_senders_by_submission_id,
      (⟨0, 0⟩ : SubmissionSenderId).submission_id ≤ r'.submission_id) ∧
    poolTwo.get_senders_by_submission_id.reverse.head? =
      some (⟨0, 0⟩ : SubmissionSenderId) ∧
    poolTwo.truncate_pool ⟨1, 1000000⟩ =
      truncateLoop poolTwo poolTwo.get_senders_by_submission_id.reverse
        (poolTwo.len - 1) [] :=
  truncate_first_pop_least_recent poolTwo ⟨1, 1000000⟩ (by decide) ⟨0, 0⟩ (by decide)
